import Mathlib

/-!
Verification development for the mlp repository: a shallow embedding of the
flat-buffer layout (`src/core/param_buffer.rs`, `src/core/deriv_buffer.rs`,
`src/ptr.rs`, `src/nn.rs`), of the forward kernel (`src/core/forward.rs`,
`src/nn.rs`), and of the backpropagation kernel
(`src/core/back_propagation.rs`), together with proofs about them.

Machine floats (`f32`) are modelled by `ℚ` with exact arithmetic: every claim
settled here is about the structure of the computations (which cells are read
and written, with which index arithmetic, and which sums/products are formed),
not about rounding.  Fixed-size float arrays indexed by `usize` are modelled
either by `List ℚ` (when the flat layout itself is at stake) or by total
functions `ℕ → ℚ` (for the kernel state; the code only ever touches indices
inside the ranges given by the topology, which the embedding mirrors by
restricting every loop to those ranges).
-/

/-- Activation function vtable (`src/activation.rs`, `DynActivationFunction`):
a scalar apply function and its derivative. -/
structure ActFun where
  apply : ℚ → ℚ
  deriv : ℚ → ℚ

/-- The `Identity` activation function from `src/activation.rs`
(`apply x = x`, `deriv _ = 1`). -/
def idAct : ActFun := ⟨fun x => x, fun _ => 1⟩

instance : Inhabited ActFun := ⟨idAct⟩

/-- Modelled from the spec: one layer of a `Topology` — a neuron count and an
activation function (the spec's `LayerDescription{n_neurons, activation}`;
the type itself lives outside `src/`). -/
structure LayerDescription where
  n_neurons : ℕ
  phi : ActFun

/-- Modelled from the spec: `Topology` (referenced by the buffer constructors in
`src/core/*.rs` but defined outside `src/`): an input count plus the ordered
list of layer descriptions. -/
structure Topology where
  n_inputs : ℕ
  layer_descriptions : List LayerDescription

/-- Per-layer `(n, n_previous)` dimension pairs of a topology, with
`n_previous` starting at `n_inputs` (spec: `n_0 = n_inputs`). -/
def topologyDims (nPrev : ℕ) : List LayerDescription → List (ℕ × ℕ)
  | [] => []
  | d :: ds => (d.n_neurons, nPrev) :: topologyDims d.n_neurons ds

/-- Total float count of the parameter region: per layer `n * n_previous`
(weights) plus `n` (biases).  This is the accumulation loop of
`ParamBuffer::create` (`src/core/param_buffer.rs`), and also `za_start` of
`Storage::new_in` (`src/nn.rs`, sum of `size_of_layer_params`). -/
def paramSize (nPrev : ℕ) : List LayerDescription → ℕ
  | [] => 0
  | d :: ds => d.n_neurons * nPrev + d.n_neurons + paramSize d.n_neurons ds

/-- Sum of the layer sizes (`Σ n_u`): the size of the `da` (or `z`, or `a`)
section, one vector of length `n` per layer. -/
def neuronsSize : List LayerDescription → ℕ
  | [] => 0
  | d :: ds => d.n_neurons + neuronsSize ds

/-- Flat index of entry `(k, g)` of a matrix view produced by
`MatPtr::as_mat_ref` / `as_mat_mut` (`src/ptr.rs`): the view is created with
row stride `1` and column stride `nrows`, so entry `(k, g)` lives at
`offset + k + g * nrows` (column-major). -/
def matEntryIndex (offset nrows k g : ℕ) : ℕ := offset + k + g * nrows

/-- Flat index of entry `k` of a column view produced by
`ColPtr::as_col_ref` (`src/ptr.rs`). -/
def colEntryIndex (offset k : ℕ) : ℕ := offset + k

namespace ParamBuffer

/-- The offset bookkeeping of one layer of `ParamBuffer` (`LayerRaw` in
`src/core/param_buffer.rs`): dimensions plus the flat offsets of the weight
matrix and the bias vector inside the buffer. -/
structure LayerRaw where
  n : ℕ
  n_previous : ℕ
  offset_w : ℕ
  offset_b : ℕ
  phi : ActFun

instance : Inhabited LayerRaw := ⟨⟨0, 0, 0, 0, idAct⟩⟩

/-- The layer-construction loop of `ParamBuffer::create`
(`src/core/param_buffer.rs` lines 83-106): walks the layer descriptions with a
running `n_previous` and offset counter; each layer's weight region starts at
the counter and its bias region at `counter + n * n_previous`. -/
def layersFrom (nPrev counter : ℕ) : List LayerDescription → List LayerRaw
  | [] => []
  | d :: ds =>
    let n := d.n_neurons
    let offset_w := counter
    let offset_b := counter + n * nPrev
    ⟨n, nPrev, offset_w, offset_b, d.phi⟩ :: layersFrom n (offset_b + n) ds

/-- The layout computed by `ParamBuffer::create`: the layer table plus the
total allocation length. -/
structure Layout where
  layers : List LayerRaw
  n_floats : ℕ

/-- The layout `ParamBuffer::create` produces when its assertion passes. -/
def layoutOf (t : Topology) : Layout :=
  ⟨layersFrom t.n_inputs 0 t.layer_descriptions,
    paramSize t.n_inputs t.layer_descriptions⟩

/-- `ParamBuffer::create` (`src/core/param_buffer.rs` lines 68-108): computes
the total float count, asserts it is nonzero (`assert!(n_floats != 0)`, which
aborts construction — modelled as `none`), allocates a zero-filled flat buffer
of that length and builds the layer table. -/
def create (t : Topology) : Option Layout :=
  if paramSize t.n_inputs t.layer_descriptions = 0 then none else some (layoutOf t)

/-- The weight/bias regions of a parameter layout as `(start, length)` pairs,
in the order they are carved out of the flat buffer:
`W_1, b_1, W_2, b_2, …`. -/
def regions (layers : List LayerRaw) : List (ℕ × ℕ) :=
  layers.foldr
    (fun L acc => (L.offset_w, L.n * L.n_previous) :: (L.offset_b, L.n) :: acc) []

end ParamBuffer

namespace DerivBuffer

/-- The offset bookkeeping of one layer of `DerivBuffer` (`LayerRaw` in
`src/core/deriv_buffer.rs`): dimensions plus the flat offsets of `dw`, `db`
and the per-sample `da` scratch vector. -/
structure LayerRaw where
  n : ℕ
  n_previous : ℕ
  offset_dw : ℕ
  offset_db : ℕ
  offset_da : ℕ

instance : Inhabited LayerRaw := ⟨⟨0, 0, 0, 0, 0⟩⟩

/-- The layer-construction loop of `DerivBuffer::create`
(`src/core/deriv_buffer.rs` lines 104-130): the `dw`/`db` regions are carved
from a params counter starting at `0`, the `da` regions from a second counter
starting at `da_start`. -/
def layersFrom (nPrev cp cda : ℕ) : List LayerDescription → List LayerRaw
  | [] => []
  | d :: ds =>
    let n := d.n_neurons
    let offset_dw := cp
    let offset_db := cp + n * nPrev
    let offset_da := cda
    ⟨n, nPrev, offset_dw, offset_db, offset_da⟩ ::
      layersFrom n (offset_db + n) (cda + n) ds

/-- The layout computed by `DerivBuffer::create`: the layer table, the start of
the `da` section, and the total allocation length. -/
structure Layout where
  layers : List LayerRaw
  da_start : ℕ
  n_floats : ℕ

/-- The layout `DerivBuffer::create` produces when its assertion passes:
`da_start` is the summed size of all `dw`/`db` regions, which coincides with
the parameter count of the topology. -/
def layoutOf (t : Topology) : Layout :=
  let da_start := paramSize t.n_inputs t.layer_descriptions
  ⟨layersFrom t.n_inputs 0 da_start t.layer_descriptions, da_start,
    da_start + neuronsSize t.layer_descriptions⟩

/-- `DerivBuffer::create` (`src/core/deriv_buffer.rs` lines 82-136): computes
the total float count (`dw + db + da` per layer), asserts it nonzero
(modelled as `none`), and builds the layer table with the two counters. -/
def create (t : Topology) : Option Layout :=
  if paramSize t.n_inputs t.layer_descriptions + neuronsSize t.layer_descriptions = 0
  then none else some (layoutOf t)

/-- The `dw`/`db` regions of a derivative layout, in carving order. -/
def paramRegions (layers : List LayerRaw) : List (ℕ × ℕ) :=
  layers.foldr
    (fun L acc => (L.offset_dw, L.n * L.n_previous) :: (L.offset_db, L.n) :: acc) []

/-- The `da` regions of a derivative layout, in carving order. -/
def daRegions (layers : List LayerRaw) : List (ℕ × ℕ) :=
  layers.foldr (fun L acc => (L.offset_da, L.n) :: acc) []

end DerivBuffer

/-- A list of `(start, length)` regions tiles the flat buffer contiguously from
`c`: each region starts exactly where the previous one ended.  (Boolean so
that witnesses can evaluate it.) -/
def contiguousFrom : ℕ → List (ℕ × ℕ) → Bool
  | _, [] => true
  | c, r :: rs => decide (r.1 = c) && contiguousFrom (r.1 + r.2) rs

/-- Rust's `GetDisjointMutError` (`std::slice`), returned by
`layer_disjoint_mut`. -/
inductive GetDisjointMutError where
  | indexOutOfBounds
  | overlappingIndices

/-- The validity check of Rust's `slice::get_disjoint_mut`, which
`ParamBuffer::layer_disjoint_mut` (`src/core/param_buffer.rs` lines 193-203)
delegates to: walking the requested indices in order, an index `≥ len` yields
`IndexOutOfBounds` and an index equal to an earlier one yields
`OverlappingIndices`; otherwise the call succeeds.  `earlier` accumulates the
already-checked indices. -/
def getDisjointCheck (len : ℕ) : List ℕ → List ℕ → Option GetDisjointMutError
  | _, [] => none
  | earlier, i :: rest =>
    if len ≤ i then some .indexOutOfBounds
    else if i ∈ earlier then some .overlappingIndices
    else getDisjointCheck len (i :: earlier) rest

/-- `ParamBuffer::layer_disjoint_mut` (`src/core/param_buffer.rs` lines
193-203): runs `get_disjoint_mut` on the layer table and on success returns the
mutable views of the requested layers.  (The const-generic index array is
modelled as a list.) -/
def ParamBuffer.layer_disjoint_mut (P : ParamBuffer.Layout) (indices : List ℕ) :
    Except GetDisjointMutError (List ParamBuffer.LayerRaw) :=
  match getDisjointCheck P.layers.length [] indices with
  | some e => .error e
  | none => .ok (indices.map fun i => P.layers.getD i default)

/-- The success/failure discriminant of an `Except`. -/
def exceptIsOk : Except GetDisjointMutError (List ParamBuffer.LayerRaw) → Bool
  | .ok _ => true
  | .error _ => false

/-- `apply_derivs` (`src/core/back_propagation.rs` lines 56-66): zips the
parameter buffer's flat slice with the `dw`/`db` section of the derivative
buffer and performs `p -= eta * dp` on every pair.  Nothing outside the
parameter buffer is written. -/
def apply_derivs (param_buffer deriv_params : List ℚ) (eta : ℚ) : List ℚ :=
  List.zipWith (fun p dp => p - eta * dp) param_buffer deriv_params

/-- `LoadParamsError` (`src/nn.rs`): the only variant is "incorrect length". -/
inductive LoadParamsError where
  | incorrectLength

/-- The `Storage` of the prototype `NeuralNetwork` (`src/nn.rs`): one flat
buffer whose first `za_start` floats are the parameter regions
(`W_1, b_1, W_2, b_2, …`) and whose tail holds the per-layer `z`/`a` vectors. -/
structure Storage where
  za_start : ℕ
  buffer : List ℚ

/-- `Storage::load_params` (`src/nn.rs` lines 177-187): if the input slice's
length differs from `za_start` (the topology's total parameter count) it
returns the "incorrect length" error and leaves the buffer untouched;
otherwise it copies `za_start` floats from the input over the start of the
buffer (`copy_nonoverlapping`).  Modelled as the post-call storage paired with
the `Result`: `none` is `Ok(())`. -/
def Storage.load_params (s : Storage) (input : List ℚ) :
    Storage × Option LoadParamsError :=
  if input.length ≠ s.za_start then (s, some .incorrectLength)
  else ({ s with buffer := input.take s.za_start ++ s.buffer.drop s.za_start }, none)

/-- `Storage::new_in` (`src/nn.rs` lines 79-143), restricted to the fields the
claims touch: `za_start` is the summed parameter size and the buffer is
zero-initialized with the per-layer `z`/`a` vectors (`2 n` floats per layer)
after the parameter regions. -/
def Storage.new_in (n_inputs : ℕ) (ds : List LayerDescription) : Storage :=
  ⟨paramSize n_inputs ds,
    List.replicate (paramSize n_inputs ds + 2 * neuronsSize ds) 0⟩

/-! ## Kernel state

The kernels of `src/core/forward.rs` and `src/core/back_propagation.rs`
operate on layer views.  A view's numeric content is modelled as total
functions (`ℕ → ℚ` for vectors, `ℕ → ℕ → ℚ` for matrices); the loops below
only ever touch the indices below the topology's dimensions, exactly like the
code.  The same-topology safety contract (`assume!` in the source) lets the
embedding take every dimension from the parameter layer. -/

/-- Pointwise array write: `f` with index `k` set to `v`. -/
def updF {α : Type} (f : ℕ → α) (k : ℕ) (v : α) : ℕ → α :=
  fun i => if i = k then v else f i

/-- Matrix cell write: `f` with cell `(k, g)` set to `v`. -/
def updM (f : ℕ → ℕ → ℚ) (k g : ℕ) (v : ℚ) : ℕ → ℕ → ℚ :=
  updF f k (updF (f k) g v)

/-- `param_buffer::LayerRef` (`src/core/param_buffer.rs`): one parameter
layer's dimensions, weight matrix, bias vector and activation function, as the
kernels see them. -/
structure LayerRef where
  n : ℕ
  n_previous : ℕ
  w : ℕ → ℕ → ℚ
  b : ℕ → ℚ
  phi : ActFun

instance : Inhabited LayerRef :=
  ⟨⟨0, 0, fun _ _ => 0, fun _ => 0, idAct⟩⟩

/-- `result_buffer::LayerMut` content (`src/core/result_buffer.rs`): the
pre-activation vector `z` and activation vector `a` of one layer. -/
structure ResultLayer where
  z : ℕ → ℚ
  a : ℕ → ℚ

instance : Inhabited ResultLayer := ⟨⟨fun _ => 0, fun _ => 0⟩⟩

/-- `deriv_buffer::LayerMut` content (`src/core/deriv_buffer.rs`): the batch
accumulators `dw`, `db` and the per-sample scratch `da` of one layer. -/
structure DerivLayer where
  dw : ℕ → ℕ → ℚ
  db : ℕ → ℚ
  da : ℕ → ℚ

instance : Inhabited DerivLayer := ⟨⟨fun _ _ => 0, fun _ => 0, fun _ => 0⟩⟩

/-- The view of a parameter layer that `ParamBuffer::layer` hands to the
kernels, reading the flat buffer through the offsets of the layout: the weight
matrix through `MatPtr::as_mat_ref` (column stride `nrows`) and the bias
vector through `ColPtr::as_col_ref`. -/
def layerRefOfFlat (buf : ℕ → ℚ) (L : ParamBuffer.LayerRaw) : LayerRef :=
  ⟨L.n, L.n_previous,
    fun k g => buf (matEntryIndex L.offset_w L.n k g),
    fun k => buf (colEntryIndex L.offset_b k), L.phi⟩

/-- The whole layer-view table of a parameter buffer over a flat buffer. -/
def netOfFlat (t : Topology) (buf : ℕ → ℚ) : List LayerRef :=
  (ParamBuffer.layoutOf t).layers.map (layerRefOfFlat buf)

/-- Layer dimensions fit together: each layer's `n_previous` equals the
previous layer's `n`.  This is the matching-topology invariant the buffers
share by construction and the kernels assume. -/
def consistentB (net : List LayerRef) : Bool :=
  (net.zip net.tail).all fun p => p.2.n_previous == p.1.n

/-! ## Forward kernel (`src/core/forward.rs`) -/

/-- The `faer` dense matrix-vector product `matmul(z, Accum::Replace, w,
a_prev, 1.0, Par::Seq)`: rows `k < nrows` of `z` are replaced by
`Σ_{g<ncols} w[k][g] * a_prev[g]`; the library writes nothing outside the
`nrows` rows of its destination view. -/
def matmulReplace (w : ℕ → ℕ → ℚ) (nrows ncols : ℕ) (aPrev zOld : ℕ → ℚ) :
    ℕ → ℚ :=
  fun k => if k < nrows then ∑ g ∈ Finset.range ncols, w k g * aPrev g else zOld k

/-- The per-neuron loop of `forward_unchecked` (`src/core/forward.rs` lines
52-55): for each `k`, `z[k] += b[k]` then `a[k] = phi(z[k])`. -/
def forwardLayerLoop (L : LayerRef) (z a : ℕ → ℚ) : (ℕ → ℚ) × (ℕ → ℚ) :=
  (List.range L.n).foldl
    (fun st k =>
      let z' := updF st.1 k (st.1 k + L.b k)
      (z', updF st.2 k (L.phi.apply (z' k))))
    (z, a)

/-- One iteration of the layer loop of `forward_unchecked`: layer `u` reads its
input from the input vector (`u = 0`) or from layer `u-1`'s activation cells of
the result buffer (written by the previous iteration), replaces its `z` row
block by the matrix-vector product, then runs the bias/activation loop. -/
def forwardStep (net : List LayerRef) (input : ℕ → ℚ) (rb : ℕ → ResultLayer)
    (u : ℕ) : ℕ → ResultLayer :=
  let L := net.getD u default
  let aPrev : ℕ → ℚ :=
    match u with
    | 0 => input
    | u' + 1 => (rb u').a
  let z1 := matmulReplace L.w L.n L.n_previous aPrev (rb u).z
  let p := forwardLayerLoop L z1 (rb u).a
  updF rb u ⟨p.1, p.2⟩

/-- `forward_unchecked` (`src/core/forward.rs` lines 9-57): the layer loop in
increasing order over the result buffer. -/
def forward_unchecked (net : List LayerRef) (input : ℕ → ℚ)
    (rb : ℕ → ResultLayer) : ℕ → ResultLayer :=
  (List.range net.length).foldl (forwardStep net input) rb

/-! ## Specification-side forward values

`specResults` is the mathematical description from the spec: per layer in
order, `z_u = W_u · a_{u-1} + b_u` with `a_0` the input vector and
`a_u = phi_u(z_u)` element-wise. -/

/-- Spec-side pre-activation of a single layer on input `x`:
`z[k] = (W · x)[k] + b[k]`. -/
def specZ1 (L : LayerRef) (x : ℕ → ℚ) : ℕ → ℚ :=
  fun k => (∑ g ∈ Finset.range L.n_previous, L.w k g * x g) + L.b k

/-- Spec-side activation of a single layer on input `x`:
`a[k] = phi(z[k])`. -/
def specA1 (L : LayerRef) (x : ℕ → ℚ) : ℕ → ℚ :=
  fun k => L.phi.apply (specZ1 L x k)

/-- Spec-side forward results, one `(z, a)` pair per layer. -/
def specResults (input : ℕ → ℚ) : List LayerRef → List ((ℕ → ℚ) × (ℕ → ℚ))
  | [] => []
  | L :: rest => (specZ1 L input, specA1 L input) :: specResults (specA1 L input) rest

/-- Spec-side pre-activation vector of layer `u`. -/
def zSpec (net : List LayerRef) (x : ℕ → ℚ) (u : ℕ) : ℕ → ℚ :=
  ((specResults x net).getD u default).1

/-- Spec-side activation vector of layer `u`. -/
def aSpec (net : List LayerRef) (x : ℕ → ℚ) (u : ℕ) : ℕ → ℚ :=
  ((specResults x net).getD u default).2

/-- Spec-side input of layer `u`: the sample for `u = 0`, else layer `u-1`'s
activations. -/
def aPrevSpec (net : List LayerRef) (x : ℕ → ℚ) : ℕ → ℕ → ℚ
  | 0 => x
  | u + 1 => aSpec net x u

/-! ## Backpropagation kernel (`src/core/back_propagation.rs`) -/

/-- The state of `back_propagate_layer`'s loops: the current layer's `db` and
`dw` accumulators and (when a previous layer exists) its `da` scratch. -/
structure BPState where
  db : ℕ → ℚ
  dw : ℕ → ℕ → ℚ
  daPrev : Option (ℕ → ℚ)

/-- Zero the first `n` cells of a vector: the `da_prev` zeroing loop of
`back_propagate_layer` (`src/core/back_propagation.rs` lines 149-153). -/
def zeroFirst (n : ℕ) (f : ℕ → ℚ) : ℕ → ℚ :=
  (List.range n).foldl (fun f g => updF f g 0) f

/-- The inner `g` loop of `back_propagate_layer` (lines 163-169):
`dw[(k,g)] += dak * phi' * a_prev[g]` and, when a previous layer exists,
`da_prev[g] += dak * phi' * w[(k,g)]`. -/
def bpGLoop (k : ℕ) (dak phid : ℚ) (aPrev : ℕ → ℚ) (w : ℕ → ℕ → ℚ) (nG : ℕ)
    (st : BPState) : BPState :=
  (List.range nG).foldl
    (fun st g =>
      let st := { st with dw := updM st.dw k g (st.dw k g + dak * phid * aPrev g) }
      match st.daPrev with
      | none => st
      | some dap =>
        { st with daPrev := some (updF dap g (dap g + dak * phid * w k g)) })
    st

/-- `back_propagate_layer` (`src/core/back_propagation.rs` lines 124-171):
zeroes `da_prev`, then for each neuron `k` computes `phi' = phi.deriv(z[k])`
and the error `dak` (output layer: `a[k] - y[k]`; inner layer: `da[k]` as
written by the layer above), accumulates `db[k] += dak * phi'` and runs the
`g` loop. -/
def back_propagate_layer (is_output_layer : Bool) (aPrev : ℕ → ℚ) (L : LayerRef)
    (dl : DerivLayer) (daPrev0 : Option (ℕ → ℚ)) (rl : ResultLayer)
    (y : ℕ → ℚ) : BPState :=
  let daPrevZ := daPrev0.map (zeroFirst L.n_previous)
  let da := dl.da
  (List.range L.n).foldl
    (fun st k =>
      let phid := L.phi.deriv (rl.z k)
      let dak := if is_output_layer then rl.a k - y k else da k
      let st := { st with db := updF st.db k (st.db k + dak * phid) }
      bpGLoop k dak phid aPrev L.w L.n_previous st)
    ⟨dl.db, dl.dw, daPrevZ⟩

/-- The `a_prev` selection of the reverse layer walk: layer `0` reads the
sample input, layer `u' + 1` reads layer `u'`'s activations from the result
buffer. -/
def aPrevRead (x : ℕ → ℚ) (rb : ℕ → ResultLayer) : ℕ → ℕ → ℚ
  | 0 => x
  | u' + 1 => (rb u').a

/-- One iteration of the reverse layer walk of `back_propagate_sample`
(`src/core/back_propagation.rs` lines 79-119): picks layer `u`'s views (its
input `a_prev`, its results, its derivative accumulators and — via
`layer_disjoint_unchecked_mut` — layer `u-1`'s `da`), adds the squared output
errors to the sample loss when `u` is the output layer, runs
`back_propagate_layer` and writes the updated accumulators back. -/
def bpSampleStep (net : List LayerRef) (rb : ℕ → ResultLayer) (x y : ℕ → ℚ)
    (acc : ℚ × (ℕ → DerivLayer)) (u : ℕ) : ℚ × (ℕ → DerivLayer) :=
  let dbuf := acc.2
  let L := net.getD u default
  let aPrev : ℕ → ℚ := aPrevRead x rb u
  let rl := rb u
  let is_output := decide (u + 1 = net.length)
  let l_i :=
    if is_output then
      (List.range L.n).foldl (fun l k => l + (rl.a k - y k) ^ 2) acc.1
    else acc.1
  let daPrev0 : Option (ℕ → ℚ) :=
    match u with
    | 0 => none
    | u' + 1 => some ((dbuf u').da)
  let st := back_propagate_layer is_output aPrev L (dbuf u) daPrev0 rl y
  let dbuf := updF dbuf u { dbuf u with db := st.db, dw := st.dw }
  let dbuf :=
    match u with
    | 0 => dbuf
    | u' + 1 =>
      match st.daPrev with
      | some dap => updF dbuf u' { dbuf u' with da := dap }
      | none => dbuf
  (l_i, dbuf)

/-- `back_propagate_sample` (`src/core/back_propagation.rs` lines 69-121): runs
the forward kernel for the sample, then walks the layers from last to first,
returning the sample's loss and the updated buffers. -/
def back_propagate_sample (net : List LayerRef) (rb : ℕ → ResultLayer)
    (dbuf : ℕ → DerivLayer) (x y : ℕ → ℚ) :
    ℚ × (ℕ → ResultLayer) × (ℕ → DerivLayer) :=
  let rb := forward_unchecked net x rb
  let r := ((List.range net.length).reverse).foldl (bpSampleStep net rb x y) (0, dbuf)
  (r.1, rb, r.2)

/-- `DerivBuffer::clear_params` (`src/core/deriv_buffer.rs` lines 139-141):
zero the `dw`/`db` section of the buffer; `da` is untouched. -/
def clear_params (dbuf : ℕ → DerivLayer) : ℕ → DerivLayer :=
  fun u => { dbuf u with dw := fun _ _ => 0, db := fun _ => 0 }

/-- Divide the `dw`/`db` section of the buffer by `n` (the
`for p in deriv_buffer.params_mut() { *p /= n }` loop of `calculate_derivs`);
`da` is untouched. -/
def divideParams (dbuf : ℕ → DerivLayer) (n : ℚ) : ℕ → DerivLayer :=
  fun u => { dbuf u with dw := fun k g => (dbuf u).dw k g / n,
                         db := fun k => (dbuf u).db k / n }

/-- The body of `calculate_derivs`'s sample loop: back-propagate one sample
against the running result/derivative buffers, add its loss to the running
total and bump the sample counter. -/
def cdStep (net : List LayerRef)
    (acc : ℚ × ℕ × (ℕ → ResultLayer) × (ℕ → DerivLayer))
    (s : (ℕ → ℚ) × (ℕ → ℚ)) : ℚ × ℕ × (ℕ → ResultLayer) × (ℕ → DerivLayer) :=
  let r := back_propagate_sample net acc.2.2.1 acc.2.2.2 s.1 s.2
  (acc.1 + r.1, acc.2.1 + 1, r.2.1, r.2.2)

/-- `calculate_derivs` (`src/core/back_propagation.rs` lines 18-46): clears the
`dw`/`db` accumulators once, back-propagates every sample while counting them
and summing their losses, divides every accumulator by the sample count and
returns the summed loss divided by the sample count. -/
def calculate_derivs (net : List LayerRef) (rb : ℕ → ResultLayer)
    (dbuf : ℕ → DerivLayer) (samples : List ((ℕ → ℚ) × (ℕ → ℚ))) :
    ℚ × (ℕ → ResultLayer) × (ℕ → DerivLayer) :=
  let dbuf := clear_params dbuf
  let r := samples.foldl (cdStep net) (0, 0, rb, dbuf)
  let n : ℚ := (r.2.1 : ℕ)
  (r.1 / n, r.2.2.1, divideParams r.2.2.2 n)

/-! ## Specification-side error signals and per-sample gradient increments -/

/-- The back-propagated error signal, by distance `d` from the output layer
(layer index `u = U - 1 - d`): at the output layer `e_k = a_k - y_k`, and one
layer down `e_g = Σ_k e'_k · phi'(z_k) · W[k][g]` over the layer above. -/
def errSpec (net : List LayerRef) (x y : ℕ → ℚ) : ℕ → ℕ → ℚ
  | 0 => fun k => aSpec net x (net.length - 1) k - y k
  | d + 1 => fun g =>
    let u := net.length - 1 - d
    let L := net.getD u default
    ∑ k ∈ Finset.range L.n,
      errSpec net x y d k * L.phi.deriv (zSpec net x u k) * L.w k g

/-- The error signal of layer `u` (`e_k` of the claim): `errSpec` re-indexed by
layer number. -/
def eAt (net : List LayerRef) (x y : ℕ → ℚ) (u : ℕ) : ℕ → ℚ :=
  errSpec net x y (net.length - 1 - u)

/-- Per-sample `db` increment of layer `u`, neuron `k`:
`e_k · phi'(z_u[k])`. -/
def dbInc (net : List LayerRef) (x y : ℕ → ℚ) (u k : ℕ) : ℚ :=
  eAt net x y u k * (net.getD u default).phi.deriv (zSpec net x u k)

/-- Per-sample `dw` increment of layer `u`, cell `(k, g)`:
`e_k · phi'(z_u[k]) · a_{u-1}[g]`. -/
def dwInc (net : List LayerRef) (x y : ℕ → ℚ) (u k g : ℕ) : ℚ :=
  dbInc net x y u k * aPrevSpec net x u g

/-- Per-sample loss: the sum of the squared output-layer errors. -/
def sampleLoss (net : List LayerRef) (x y : ℕ → ℚ) : ℚ :=
  ∑ k ∈ Finset.range (net.getD (net.length - 1) default).n,
    (aSpec net x (net.length - 1) k - y k) ^ 2

/-! ## Prototype forward pass (`src/nn.rs`)

The prototype `NeuralNetwork` keeps parameters and `z`/`a` results in a single
flat `Storage` buffer and runs its forward pass with raw pointer arithmetic
(`NeuralNetwork::forward` / `forward_layer`).  The whole buffer is modelled as
one function `ℕ → ℚ` and every pointer read/write is performed against the
current buffer state, so any aliasing the pointer arithmetic produces is
reproduced faithfully. -/

/-- The offsets of one layer of the prototype `Storage` (`RawLayer` plus the
offset computation of `Storage::new_in`, `src/nn.rs` lines 108-137): weights
and biases are carved from a params counter starting at `0`, `z` and `a` from
a second counter starting at `za_start`. -/
structure ProtoLayer where
  n : ℕ
  n_previous : ℕ
  offset_w : ℕ
  offset_b : ℕ
  offset_z : ℕ
  offset_a : ℕ
  phi : ActFun

instance : Inhabited ProtoLayer := ⟨⟨0, 0, 0, 0, 0, 0, idAct⟩⟩

/-- The layer-offset loop of `Storage::new_in`. -/
def protoLayersFrom (nPrev cp cza : ℕ) : List LayerDescription → List ProtoLayer
  | [] => []
  | d :: ds =>
    let n := d.n_neurons
    ⟨n, nPrev, cp, cp + n * nPrev, cza, cza + n, d.phi⟩ ::
      protoLayersFrom n (cp + n * nPrev + n) (cza + n + n) ds

/-- The layer table of the prototype `Storage` for a topology. -/
def protoLayers (t : Topology) : List ProtoLayer :=
  protoLayersFrom t.n_inputs 0 (paramSize t.n_inputs t.layer_descriptions)
    t.layer_descriptions

/-- `NeuralNetwork::forward_layer` (`src/nn.rs` lines 343-374), exactly as
written: for each `k`, the inner `g` loop executes `*zk = wkg * a_prev_g` with
`wkg` read from the raw weight pointer at offset `g * n_prev + k`; then
`*zk += *bk` and `*ak = phi(*zk)`.  `readPrev` performs the `a_prev[g]` read
(from the input slice for layer 1, else through the pointer to the previous
layer's `a` region of the same buffer). -/
def protoForwardLayer (L : ProtoLayer) (readPrev : (ℕ → ℚ) → ℕ → ℚ)
    (buf : ℕ → ℚ) : ℕ → ℚ :=
  (List.range L.n).foldl
    (fun buf k =>
      let buf := (List.range L.n_previous).foldl
        (fun buf g =>
          let wkg := buf (L.offset_w + (g * L.n_previous + k))
          updF buf (L.offset_z + k) (wkg * readPrev buf g))
        buf
      let buf := updF buf (L.offset_z + k)
        (buf (L.offset_z + k) + buf (L.offset_b + k))
      updF buf (L.offset_a + k) (L.phi.apply (buf (L.offset_z + k))))
    buf

/-- `NeuralNetwork::forward` (`src/nn.rs` lines 294-341): the layer loop over
`i_layer = 1..=n_layers`; layer 1 reads its input from the input slice, later
layers read through `get_a_unchecked(i_layer - 1)`.  Returns the final buffer
state; the network output is the last layer's `a` region. -/
def protoForward (t : Topology) (x : ℕ → ℚ) (buf : ℕ → ℚ) : ℕ → ℚ :=
  let Ls := protoLayers t
  (List.range Ls.length).foldl
    (fun buf i =>
      let L := Ls.getD i default
      let readPrev : (ℕ → ℚ) → ℕ → ℚ :=
        match i with
        | 0 => fun _ g => x g
        | i' + 1 => fun buf g => buf ((Ls.getD i' default).offset_a + g)
      protoForwardLayer L readPrev buf)
    buf

/-! ## Concrete instances used by counterexamples and witnesses -/

/-- An all-zero result buffer (freshly created `ResultBuffer`). -/
def rbZero : ℕ → ResultLayer := fun _ => ⟨fun _ => 0, fun _ => 0⟩

/-- An all-zero derivative buffer (freshly created `DerivBuffer`). -/
def dbufZero : ℕ → DerivLayer := fun _ => ⟨fun _ _ => 0, fun _ => 0, fun _ => 0⟩

/-- A 2-inputs / one-layer-of-2 topology: its weight matrix is 2×2, where
row-major and column-major placement differ. -/
def t4 : Topology := ⟨2, [⟨2, idAct⟩]⟩

/-- The single layer of `t4`'s parameter layout. -/
def layer4 : ParamBuffer.LayerRaw := (ParamBuffer.layoutOf t4).layers.getD 0 default

/-- A 1-input / one-layer-of-1 topology (2 parameters). -/
def t6 : Topology := ⟨1, [⟨1, idAct⟩]⟩

/-- A fresh prototype storage for `t6`. -/
def s6 : Storage := Storage.new_in 1 [⟨1, idAct⟩]

/-- A parameter slice of the right length for `t6`. -/
def in6 : List ℚ := [5, 6]

/-- A topology whose only layer has zero neurons: its total float count is
zero, so buffer construction hits the `assert!(n_floats != 0)`. -/
def t8 : Topology := ⟨1, [⟨0, idAct⟩]⟩

/-- A well-formed two-layer topology (2 inputs, layers of 3 and 1). -/
def t8good : Topology := ⟨2, [⟨3, idAct⟩, ⟨1, idAct⟩]⟩

/-- A one-layer topology for the disjoint-borrow counterexample. -/
def t9 : Topology := ⟨1, [⟨1, idAct⟩]⟩

/-- The failing topology for the prototype forward pass: 2 inputs, one
identity-activated neuron. -/
def t10 : Topology := ⟨2, [⟨1, idAct⟩]⟩

/-- The prototype storage buffer for `t10` with `W = [1, 1]`, `b = [0]`
loaded (za cells zero, as freshly created). -/
def buf10 : ℕ → ℚ := fun i => if i = 0 then 1 else if i = 1 then 1 else 0

/-- The input vector `(1, 1)`. -/
def x10 : ℕ → ℚ := fun g => if g = 0 then 1 else if g = 1 then 1 else 0

/-- The core kernels' view of the same parameters as `buf10`. -/
def net10 : List LayerRef := netOfFlat t10 buf10

/-- A concrete two-layer network for witnesses: layer 0 has 2 neurons on 1
input (`w[k][0] = k + 1`, `b = 1`), layer 1 has 1 neuron on 2 inputs
(`w[0][g] = 1`, `b = 0`), identity activations. -/
def netW : List LayerRef :=
  [⟨2, 1, fun k _ => (k : ℚ) + 1, fun _ => 1, idAct⟩,
    ⟨1, 2, fun _ _ => 1, fun _ => 0, idAct⟩]

/-- A concrete sample input for `netW`. -/
def xW : ℕ → ℚ := fun _ => 1

/-- A concrete sample target for `netW`. -/
def yW : ℕ → ℚ := fun _ => 2

/-- A second sample input for `netW`. -/
def xW2 : ℕ → ℚ := fun _ => 3

/-- A second sample target for `netW`. -/
def yW2 : ℕ → ℚ := fun _ => 0

/-! ## Helper lemmas -/

theorem updF_self {α : Type} (f : ℕ → α) (k : ℕ) (v : α) : updF f k v k = v := by
  simp [updF]

theorem updF_ne {α : Type} (f : ℕ → α) (k i : ℕ) (v : α) (h : i ≠ k) :
    updF f k v i = f i := by
  simp [updF, h]

theorem foldl_range_succ {α : Type} (f : α → ℕ → α) (a : α) (n : ℕ) :
    (List.range (n + 1)).foldl f a = f ((List.range n).foldl f a) n := by
  rw [List.range_succ, List.foldl_append, List.foldl_cons, List.foldl_nil]

theorem foldl_add_sum (f : ℕ → ℚ) (l0 : ℚ) (n : ℕ) :
    (List.range n).foldl (fun l k => l + f k) l0 = l0 + ∑ k ∈ Finset.range n, f k := by
  induction n with
  | zero => simp
  | succ n ih => rw [foldl_range_succ, ih, Finset.sum_range_succ]; ring

/-! ## C5: the parameter update -/

/-- C5.  `apply_derivs` performs `p -= eta * dp` on every parameter (weight or
bias) of the flat parameter buffer, paired positionally with the averaged
gradient buffer, and produces nothing else: the result has the same length and
every cell `i` holds exactly `params[i] - eta * derivs[i]`. -/
theorem apply_derivs_updates_each (params derivs : List ℚ) (eta : ℚ)
    (h : params.length = derivs.length) :
    (apply_derivs params derivs eta).length = params.length ∧
      ∀ i < params.length,
        (apply_derivs params derivs eta).getD i 0 =
          params.getD i 0 - eta * derivs.getD i 0 := by
  induction params generalizing derivs with
  | nil => simp [apply_derivs]
  | cons p ps ih =>
    cases derivs with
    | nil => simp at h
    | cons d ds =>
      have h' : ps.length = ds.length := by simpa using h
      obtain ⟨hl, he⟩ := ih ds h'
      refine ⟨by simpa [apply_derivs] using hl, ?_⟩
      intro i hi
      cases i with
      | zero => simp [apply_derivs]
      | succ j =>
        have hj : j < ps.length := by simpa using hi
        simpa [apply_derivs] using he j hj

/-- Witness for C5 at `params = [1, 2]`, `derivs = [3, 4]`, `eta = 5`. -/
theorem apply_derivs_updates_each_witness :
    ([(1 : ℚ), 2].length = [(3 : ℚ), 4].length) ∧
      ((apply_derivs [(1 : ℚ), 2] [3, 4] 5).length = [(1 : ℚ), 2].length ∧
        (apply_derivs [(1 : ℚ), 2] [3, 4] 5).getD 1 0 =
          [(1 : ℚ), 2].getD 1 0 - 5 * [(3 : ℚ), 4].getD 1 0) :=
  ⟨by decide,
    ⟨(apply_derivs_updates_each [(1 : ℚ), 2] [3, 4] 5 (by decide)).1,
      (apply_derivs_updates_each [(1 : ℚ), 2] [3, 4] 5 (by decide)).2 1 (by decide)⟩⟩

/-! ## C6: loading parameters -/

/-- C6.  `Storage::load_params` fails with the "incorrect length" error exactly
when the input slice's length differs from the topology's total parameter
count (`za_start`); on error the storage is unmodified, and on success the
input is copied verbatim over the parameter region while everything after it
is untouched. -/
theorem load_params_spec (t : Topology) (s : Storage) (input : List ℚ)
    (hs : s.za_start = paramSize t.n_inputs t.layer_descriptions) :
    ((s.load_params input).2.isSome ↔
        input.length ≠ paramSize t.n_inputs t.layer_descriptions) ∧
      ((s.load_params input).2.isSome → (s.load_params input).1 = s) ∧
      ((s.load_params input).2 = none →
        (s.load_params input).1.buffer = input ++ s.buffer.drop s.za_start ∧
          (s.load_params input).1.za_start = s.za_start) := by
  rw [← hs]
  by_cases h : input.length = s.za_start
  · have hcopy : input.take s.za_start = input := by
      rw [← h]; exact List.take_length input
    refine ⟨by simp [Storage.load_params, h], ?_, ?_⟩
    · intro hsome
      simp [Storage.load_params, h] at hsome
    · intro _
      simp [Storage.load_params, h, hcopy]
  · refine ⟨by simp [Storage.load_params, h], ?_, ?_⟩
    · intro _
      simp [Storage.load_params, h]
    · intro hnone
      simp [Storage.load_params, h] at hnone

/-- Witness for C6: the fresh storage of the 1-input/1-neuron topology `t6`
(2 parameters) with the slice `[5, 6]`. -/
theorem load_params_spec_witness :
    (s6.za_start = paramSize t6.n_inputs t6.layer_descriptions) ∧
      (((s6.load_params in6).2.isSome ↔
          in6.length ≠ paramSize t6.n_inputs t6.layer_descriptions) ∧
        ((s6.load_params in6).2.isSome → (s6.load_params in6).1 = s6) ∧
        ((s6.load_params in6).2 = none →
          (s6.load_params in6).1.buffer = in6 ++ s6.buffer.drop s6.za_start ∧
            (s6.load_params in6).1.za_start = s6.za_start)) :=
  ⟨rfl, load_params_spec t6 s6 in6 rfl⟩

/-! ## C9: disjoint layer borrows -/

theorem getDisjointCheck_none_iff (len : ℕ) (indices : List ℕ) :
    ∀ earlier, getDisjointCheck len earlier indices = none ↔
      ((∀ i ∈ indices, i < len) ∧ indices.Nodup ∧ ∀ i ∈ indices, i ∉ earlier) := by
  induction indices with
  | nil => intro earlier; simp [getDisjointCheck]
  | cons i rest ih =>
    intro earlier
    by_cases h1 : len ≤ i
    · simp only [getDisjointCheck, if_pos h1]
      constructor
      · intro h; exact absurd h (by simp)
      · rintro ⟨hlt, -, -⟩
        exact absurd (hlt i (by simp)) (by omega)
    · by_cases h2 : i ∈ earlier
      · simp only [getDisjointCheck, if_neg h1, if_pos h2]
        constructor
        · intro h; exact absurd h (by simp)
        · rintro ⟨-, -, hnm⟩
          exact absurd h2 (hnm i (by simp))
      · simp only [getDisjointCheck, if_neg h1, if_neg h2]
        rw [ih (i :: earlier)]
        have hi : i < len := by omega
        simp only [List.mem_cons, List.nodup_cons, not_or, forall_eq_or_imp]
        constructor
        · rintro ⟨ha, hb, hc⟩
          exact ⟨⟨hi, ha⟩, ⟨fun hm => (hc i hm).1 rfl, hb⟩, h2,
            fun j hj => (hc j hj).2⟩
        · rintro ⟨⟨-, ha⟩, ⟨hnr, hb⟩, -, hc⟩
          exact ⟨ha, hb, fun j hj => ⟨fun he => hnr (he ▸ hj), hc j hj⟩⟩

/-- C9 (amended).  `ParamBuffer::layer_disjoint_mut` succeeds if and only if
the requested indices are pairwise distinct *and* all in range of the layer
table: an out-of-range index fails with `IndexOutOfBounds` even when the
indices do not repeat. -/
theorem layer_disjoint_mut_ok_iff (P : ParamBuffer.Layout) (indices : List ℕ) :
    exceptIsOk (ParamBuffer.layer_disjoint_mut P indices) = true ↔
      indices.Nodup ∧ ∀ i ∈ indices, i < P.layers.length := by
  have hiff := getDisjointCheck_none_iff P.layers.length indices []
  simp only [List.not_mem_nil, not_false_iff, implies_true, and_true] at hiff
  unfold ParamBuffer.layer_disjoint_mut
  rcases hchk : getDisjointCheck P.layers.length [] indices with _ | e
  · rw [hchk] at hiff
    have hr := hiff.mp rfl
    simpa [exceptIsOk] using ⟨hr.2, hr.1⟩
  · rw [hchk] at hiff
    simp only [exceptIsOk]
    constructor
    · intro h; cases h
    · rintro ⟨hnd, hlt⟩
      have : some e = none := hiff.mpr ⟨hlt, hnd⟩
      cases this

/-- C9 counterexample: on the one-layer topology `t9` the index list `[1]` is
pairwise distinct, yet `layer_disjoint_mut` fails (the index is out of
range). -/
theorem layer_disjoint_mut_distinct_but_fails :
    ([1] : List ℕ).Nodup ∧
      exceptIsOk (ParamBuffer.layer_disjoint_mut (ParamBuffer.layoutOf t9) [1]) = false :=
  ⟨by decide, rfl⟩

/-! ## Layout lemmas (C4, C8) -/

theorem param_regions_contiguous (ds : List LayerDescription) :
    ∀ nPrev c, contiguousFrom c (ParamBuffer.regions (ParamBuffer.layersFrom nPrev c ds)) = true := by
  induction ds with
  | nil => intro nPrev c; simp [ParamBuffer.layersFrom, ParamBuffer.regions, contiguousFrom]
  | cons d ds ih =>
    intro nPrev c
    simp only [ParamBuffer.layersFrom, ParamBuffer.regions, List.foldr_cons, contiguousFrom]
    simpa [ParamBuffer.regions, Nat.add_assoc] using ih d.n_neurons (c + d.n_neurons * nPrev + d.n_neurons)

theorem param_regions_sum (ds : List LayerDescription) :
    ∀ nPrev c, ((ParamBuffer.regions (ParamBuffer.layersFrom nPrev c ds)).map Prod.snd).sum
      = paramSize nPrev ds := by
  induction ds with
  | nil => intro nPrev c; simp [ParamBuffer.layersFrom, ParamBuffer.regions, paramSize]
  | cons d ds ih =>
    intro nPrev c
    simp only [ParamBuffer.layersFrom, ParamBuffer.regions, List.foldr_cons, List.map_cons,
      List.sum_cons, paramSize]
    rw [show (ParamBuffer.layersFrom d.n_neurons (c + d.n_neurons * nPrev + d.n_neurons) ds).foldr
        (fun L acc => (L.offset_w, L.n * L.n_previous) :: (L.offset_b, L.n) :: acc) []
        = ParamBuffer.regions (ParamBuffer.layersFrom d.n_neurons (c + d.n_neurons * nPrev + d.n_neurons) ds) from rfl,
      ih d.n_neurons]
    omega

theorem param_regions_sizes_pos (ds : List LayerDescription) :
    ∀ nPrev c, 0 < nPrev → (∀ d ∈ ds, 0 < d.n_neurons) →
      ∀ r ∈ ParamBuffer.regions (ParamBuffer.layersFrom nPrev c ds), 0 < r.2 := by
  induction ds with
  | nil => intro nPrev c _ _ r hr; simp [ParamBuffer.layersFrom, ParamBuffer.regions] at hr
  | cons d ds ih =>
    intro nPrev c hp hall r hr
    have hd : 0 < d.n_neurons := hall d (by simp)
    simp only [ParamBuffer.layersFrom, ParamBuffer.regions, List.foldr_cons,
      List.mem_cons] at hr
    rcases hr with rfl | rfl | hr
    · simpa using Nat.mul_pos hd hp
    · simpa using hd
    · exact ih d.n_neurons _ hd (fun e he => hall e (by simp [he])) r hr

theorem param_layers_dims (ds : List LayerDescription) :
    ∀ nPrev c, (ParamBuffer.layersFrom nPrev c ds).map (fun L => (L.n, L.n_previous))
      = topologyDims nPrev ds := by
  induction ds with
  | nil => intro nPrev c; simp [ParamBuffer.layersFrom, topologyDims]
  | cons d ds ih =>
    intro nPrev c
    simp [ParamBuffer.layersFrom, topologyDims, ih d.n_neurons]

theorem param_layers_offset_b (ds : List LayerDescription) :
    ∀ nPrev c, ∀ L ∈ ParamBuffer.layersFrom nPrev c ds,
      L.offset_b = L.offset_w + L.n * L.n_previous := by
  induction ds with
  | nil => intro nPrev c L hL; simp [ParamBuffer.layersFrom] at hL
  | cons d ds ih =>
    intro nPrev c L hL
    simp only [ParamBuffer.layersFrom, List.mem_cons] at hL
    rcases hL with rfl | hL
    · rfl
    · exact ih d.n_neurons _ L hL

theorem contiguousFrom_le (rs : List (ℕ × ℕ)) :
    ∀ c, contiguousFrom c rs = true → ∀ r ∈ rs, c ≤ r.1 := by
  induction rs with
  | nil => intro c _ r hr; simp at hr
  | cons s rs ih =>
    intro c hc r hr
    simp only [contiguousFrom, Bool.and_eq_true, decide_eq_true_eq] at hc
    rcases List.mem_cons.mp hr with rfl | hr
    · omega
    · have := ih (s.1 + s.2) hc.2 r hr
      omega

theorem contiguousFrom_pairwise (rs : List (ℕ × ℕ)) :
    ∀ c, contiguousFrom c rs = true →
      List.Pairwise (fun r s => r.1 + r.2 ≤ s.1) rs := by
  induction rs with
  | nil => intro c _; exact List.Pairwise.nil
  | cons s rs ih =>
    intro c hc
    simp only [contiguousFrom, Bool.and_eq_true, decide_eq_true_eq] at hc
    refine List.Pairwise.cons ?_ (ih (s.1 + s.2) hc.2)
    intro r hr
    exact contiguousFrom_le rs (s.1 + s.2) hc.2 r hr

theorem contiguousFrom_pairwise_lt (rs : List (ℕ × ℕ)) (c : ℕ)
    (hc : contiguousFrom c rs = true) (hpos : ∀ r ∈ rs, 0 < r.2) :
    List.Pairwise (fun r s => r.1 < s.1) rs := by
  refine (contiguousFrom_pairwise rs c hc).imp_of_mem ?_
  intro r s hr _ h
  have := hpos r hr
  omega

theorem contiguousFrom_append (xs : List (ℕ × ℕ)) :
    ∀ ys c, contiguousFrom c xs = true →
      contiguousFrom (c + (xs.map Prod.snd).sum) ys = true →
      contiguousFrom c (xs ++ ys) = true := by
  induction xs with
  | nil => intro ys c _ hy; simpa using hy
  | cons s xs ih =>
    intro ys c hx hy
    simp only [contiguousFrom, Bool.and_eq_true, decide_eq_true_eq] at hx
    simp only [List.cons_append, contiguousFrom, Bool.and_eq_true, decide_eq_true_eq]
    refine ⟨hx.1, ih ys (s.1 + s.2) hx.2 ?_⟩
    have : s.1 + s.2 + ((xs.map Prod.snd).sum) = c + ((s :: xs).map Prod.snd).sum := by
      simp [hx.1]; omega
    rw [this]; exact hy

theorem deriv_param_regions_cons (L : DerivBuffer.LayerRaw) (ls : List DerivBuffer.LayerRaw) :
    DerivBuffer.paramRegions (L :: ls)
      = (L.offset_dw, L.n * L.n_previous) :: (L.offset_db, L.n) :: DerivBuffer.paramRegions ls :=
  rfl

theorem deriv_da_regions_cons (L : DerivBuffer.LayerRaw) (ls : List DerivBuffer.LayerRaw) :
    DerivBuffer.daRegions (L :: ls) = (L.offset_da, L.n) :: DerivBuffer.daRegions ls :=
  rfl

theorem deriv_param_regions_contiguous (ds : List LayerDescription) :
    ∀ nPrev cp cda,
      contiguousFrom cp (DerivBuffer.paramRegions (DerivBuffer.layersFrom nPrev cp cda ds)) = true := by
  induction ds with
  | nil => intro nPrev cp cda; simp [DerivBuffer.layersFrom, DerivBuffer.paramRegions, contiguousFrom]
  | cons d ds ih =>
    intro nPrev cp cda
    simp only [DerivBuffer.layersFrom, deriv_param_regions_cons, contiguousFrom]
    simpa [Nat.add_assoc] using ih d.n_neurons (cp + d.n_neurons * nPrev + d.n_neurons) (cda + d.n_neurons)

theorem deriv_da_regions_contiguous (ds : List LayerDescription) :
    ∀ nPrev cp cda,
      contiguousFrom cda (DerivBuffer.daRegions (DerivBuffer.layersFrom nPrev cp cda ds)) = true := by
  induction ds with
  | nil => intro nPrev cp cda; simp [DerivBuffer.layersFrom, DerivBuffer.daRegions, contiguousFrom]
  | cons d ds ih =>
    intro nPrev cp cda
    simp only [DerivBuffer.layersFrom, deriv_da_regions_cons, contiguousFrom]
    simpa using ih d.n_neurons (cp + d.n_neurons * nPrev + d.n_neurons) (cda + d.n_neurons)

theorem deriv_param_regions_sum (ds : List LayerDescription) :
    ∀ nPrev cp cda,
      ((DerivBuffer.paramRegions (DerivBuffer.layersFrom nPrev cp cda ds)).map Prod.snd).sum
        = paramSize nPrev ds := by
  induction ds with
  | nil => intro nPrev cp cda; simp [DerivBuffer.layersFrom, DerivBuffer.paramRegions, paramSize]
  | cons d ds ih =>
    intro nPrev cp cda
    simp only [DerivBuffer.layersFrom, deriv_param_regions_cons, List.map_cons, List.sum_cons,
      paramSize]
    rw [ih d.n_neurons]
    omega

theorem deriv_da_regions_sum (ds : List LayerDescription) :
    ∀ nPrev cp cda,
      ((DerivBuffer.daRegions (DerivBuffer.layersFrom nPrev cp cda ds)).map Prod.snd).sum
        = neuronsSize ds := by
  induction ds with
  | nil => intro nPrev cp cda; simp [DerivBuffer.layersFrom, DerivBuffer.daRegions, neuronsSize]
  | cons d ds ih =>
    intro nPrev cp cda
    simp only [DerivBuffer.layersFrom, deriv_da_regions_cons, List.map_cons, List.sum_cons,
      neuronsSize]
    rw [ih d.n_neurons]

theorem deriv_layers_dims (ds : List LayerDescription) :
    ∀ nPrev cp cda, (DerivBuffer.layersFrom nPrev cp cda ds).map (fun L => (L.n, L.n_previous))
      = topologyDims nPrev ds := by
  induction ds with
  | nil => intro nPrev cp cda; simp [DerivBuffer.layersFrom, topologyDims]
  | cons d ds ih =>
    intro nPrev cp cda
    simp [DerivBuffer.layersFrom, topologyDims, ih d.n_neurons]

theorem deriv_param_regions_sizes_pos (ds : List LayerDescription) :
    ∀ nPrev cp cda, 0 < nPrev → (∀ d ∈ ds, 0 < d.n_neurons) →
      ∀ r ∈ DerivBuffer.paramRegions (DerivBuffer.layersFrom nPrev cp cda ds), 0 < r.2 := by
  induction ds with
  | nil => intro nPrev cp cda _ _ r hr; simp [DerivBuffer.layersFrom, DerivBuffer.paramRegions] at hr
  | cons d ds ih =>
    intro nPrev cp cda hp hall r hr
    have hd : 0 < d.n_neurons := hall d (by simp)
    simp only [DerivBuffer.layersFrom, deriv_param_regions_cons, List.mem_cons] at hr
    rcases hr with rfl | rfl | hr
    · simpa using Nat.mul_pos hd hp
    · simpa using hd
    · exact ih d.n_neurons _ _ hd (fun e he => hall e (by simp [he])) r hr

theorem deriv_da_regions_sizes_pos (ds : List LayerDescription) :
    ∀ nPrev cp cda, (∀ d ∈ ds, 0 < d.n_neurons) →
      ∀ r ∈ DerivBuffer.daRegions (DerivBuffer.layersFrom nPrev cp cda ds), 0 < r.2 := by
  induction ds with
  | nil => intro nPrev cp cda _ r hr; simp [DerivBuffer.layersFrom, DerivBuffer.daRegions] at hr
  | cons d ds ih =>
    intro nPrev cp cda hall r hr
    have hd : 0 < d.n_neurons := hall d (by simp)
    simp only [DerivBuffer.layersFrom, deriv_da_regions_cons, List.mem_cons] at hr
    rcases hr with rfl | hr
    · simpa using hd
    · exact ih d.n_neurons _ _ (fun e he => hall e (by simp [he])) r hr

theorem paramSize_pos (t : Topology) (h1 : t.layer_descriptions ≠ [])
    (h2 : ∀ d ∈ t.layer_descriptions, 0 < d.n_neurons) :
    0 < paramSize t.n_inputs t.layer_descriptions := by
  cases hds : t.layer_descriptions with
  | nil => exact absurd hds h1
  | cons d ds =>
    rw [hds] at h2
    have hd := h2 d (by simp)
    simp only [paramSize]
    omega

/-! ## C4: the flat parameter layout -/

/-- C4 counterexample: on the 2-input / 2-neuron topology `t4`, the weight
view entry `W[0][1]` (read through `MatPtr::as_mat_ref`) lives at flat offset
`2`, not at the row-major offset `offset_w + 0 * n_previous + 1 = 1` the claim
gives. -/
theorem param_w_not_row_major :
    matEntryIndex layer4.offset_w layer4.n 0 1 ≠
      layer4.offset_w + 0 * layer4.n_previous + 1 := by
  decide

/-- C4 (amended).  The flat buffer exposed by `ParamBuffer::as_slice` is the
concatenation `W_1, b_1, W_2, b_2, …` in layer order, tiled contiguously from
offset `0` and covering exactly the `n_floats` allocation; each bias region
starts immediately after its layer's weight region; but each weight region is
**column-major**: element `W_u[k][g]` lives at flat offset
`offset(W_u) + g * n_u + k`, and `b_u[k]` at
`offset(W_u) + n_u * n_{u-1} + k`. -/
theorem param_buffer_layout_spec (t : Topology) :
    contiguousFrom 0 (ParamBuffer.regions (ParamBuffer.layoutOf t).layers) = true ∧
      ((ParamBuffer.regions (ParamBuffer.layoutOf t).layers).map Prod.snd).sum
        = (ParamBuffer.layoutOf t).n_floats ∧
      (∀ L ∈ (ParamBuffer.layoutOf t).layers,
        L.offset_b = L.offset_w + L.n * L.n_previous) ∧
      (∀ L ∈ (ParamBuffer.layoutOf t).layers, ∀ k g,
        matEntryIndex L.offset_w L.n k g = L.offset_w + g * L.n + k) ∧
      (∀ L ∈ (ParamBuffer.layoutOf t).layers, ∀ k,
        colEntryIndex L.offset_b k = L.offset_w + L.n * L.n_previous + k) := by
  refine ⟨param_regions_contiguous _ _ _, param_regions_sum _ _ _,
    param_layers_offset_b _ _ _, ?_, ?_⟩
  · intro L _ k g
    simp only [matEntryIndex]
    omega
  · intro L hL k
    simp only [colEntryIndex, param_layers_offset_b _ _ _ L hL]

/-! ## C8: buffer construction invariants -/

/-- C8 counterexample: the topology `t8` has one layer, yet `ParamBuffer::create`
does not allocate — its total float count is `0`, so the construction hits
`assert!(n_floats != 0)`. -/
theorem create_asserts_on_zero_size :
    t8.layer_descriptions ≠ [] ∧ ParamBuffer.create t8 = none :=
  ⟨by simp [t8], rfl⟩

/-- C8 (amended).  For every topology with positive input count, at least one
layer and at least one neuron per layer: construction of both the parameter
buffer and the derivative buffer succeeds (the nonzero-size assertion passes);
the per-layer regions tile the flat allocation contiguously from offset `0`
and their sizes sum to exactly the allocation length; region start offsets are
strictly increasing in carving order and the regions are pairwise
non-overlapping; and layer `u`'s weight region has shape `(n_u, n_{u-1})` with
`n_0 = n_inputs`.  In the derivative buffer the `da` section starts at
`da_start`, the summed `dw`/`db` size. -/
theorem buffer_layout_correct (t : Topology) (h0 : 0 < t.n_inputs)
    (h1 : t.layer_descriptions ≠ [])
    (h2 : ∀ d ∈ t.layer_descriptions, 0 < d.n_neurons) :
    ParamBuffer.create t = some (ParamBuffer.layoutOf t) ∧
      DerivBuffer.create t = some (DerivBuffer.layoutOf t) ∧
      ((ParamBuffer.regions (ParamBuffer.layoutOf t).layers).map Prod.snd).sum
        = (ParamBuffer.layoutOf t).n_floats ∧
      contiguousFrom 0 (ParamBuffer.regions (ParamBuffer.layoutOf t).layers) = true ∧
      List.Pairwise (fun r s => r.1 + r.2 ≤ s.1)
        (ParamBuffer.regions (ParamBuffer.layoutOf t).layers) ∧
      List.Pairwise (fun r s => r.1 < s.1)
        (ParamBuffer.regions (ParamBuffer.layoutOf t).layers) ∧
      (ParamBuffer.layoutOf t).layers.map (fun L => (L.n, L.n_previous))
        = topologyDims t.n_inputs t.layer_descriptions ∧
      ((DerivBuffer.paramRegions (DerivBuffer.layoutOf t).layers
          ++ DerivBuffer.daRegions (DerivBuffer.layoutOf t).layers).map Prod.snd).sum
        = (DerivBuffer.layoutOf t).n_floats ∧
      contiguousFrom 0 (DerivBuffer.paramRegions (DerivBuffer.layoutOf t).layers
          ++ DerivBuffer.daRegions (DerivBuffer.layoutOf t).layers) = true ∧
      List.Pairwise (fun r s => r.1 + r.2 ≤ s.1)
        (DerivBuffer.paramRegions (DerivBuffer.layoutOf t).layers
          ++ DerivBuffer.daRegions (DerivBuffer.layoutOf t).layers) ∧
      List.Pairwise (fun r s => r.1 < s.1)
        (DerivBuffer.paramRegions (DerivBuffer.layoutOf t).layers
          ++ DerivBuffer.daRegions (DerivBuffer.layoutOf t).layers) ∧
      (DerivBuffer.layoutOf t).layers.map (fun L => (L.n, L.n_previous))
        = topologyDims t.n_inputs t.layer_descriptions ∧
      (DerivBuffer.layoutOf t).da_start = paramSize t.n_inputs t.layer_descriptions := by
  have hps := paramSize_pos t h1 h2
  have hpcontig : contiguousFrom 0 (ParamBuffer.regions (ParamBuffer.layoutOf t).layers) = true :=
    param_regions_contiguous _ _ _
  have hppos : ∀ r ∈ ParamBuffer.regions (ParamBuffer.layoutOf t).layers, 0 < r.2 :=
    param_regions_sizes_pos _ _ _ h0 h2
  have hdp : contiguousFrom 0 (DerivBuffer.paramRegions (DerivBuffer.layoutOf t).layers) = true :=
    deriv_param_regions_contiguous _ _ _ _
  have hdsum : ((DerivBuffer.paramRegions (DerivBuffer.layoutOf t).layers).map Prod.snd).sum
      = paramSize t.n_inputs t.layer_descriptions :=
    deriv_param_regions_sum _ _ _ _
  have hda : contiguousFrom (paramSize t.n_inputs t.layer_descriptions)
      (DerivBuffer.daRegions (DerivBuffer.layoutOf t).layers) = true :=
    deriv_da_regions_contiguous _ _ _ _
  have hdcontig : contiguousFrom 0 (DerivBuffer.paramRegions (DerivBuffer.layoutOf t).layers
      ++ DerivBuffer.daRegions (DerivBuffer.layoutOf t).layers) = true := by
    refine contiguousFrom_append _ _ _ hdp ?_
    rw [hdsum]
    simpa using hda
  have hdpos : ∀ r ∈ DerivBuffer.paramRegions (DerivBuffer.layoutOf t).layers
      ++ DerivBuffer.daRegions (DerivBuffer.layoutOf t).layers, 0 < r.2 := by
    intro r hr
    rcases List.mem_append.mp hr with hr | hr
    · exact deriv_param_regions_sizes_pos _ _ _ _ h0 h2 r hr
    · exact deriv_da_regions_sizes_pos _ _ _ _ h2 r hr
  refine ⟨?_, ?_, param_regions_sum _ _ _, hpcontig,
    contiguousFrom_pairwise _ 0 hpcontig,
    contiguousFrom_pairwise_lt _ 0 hpcontig hppos,
    param_layers_dims _ _ _, ?_, hdcontig,
    contiguousFrom_pairwise _ 0 hdcontig,
    contiguousFrom_pairwise_lt _ 0 hdcontig hdpos,
    deriv_layers_dims _ _ _ _, rfl⟩
  · unfold ParamBuffer.create
    rw [if_neg (by omega)]
  · unfold DerivBuffer.create
    rw [if_neg (by omega)]
  · simp only [List.map_append, List.sum_append]
    rw [hdsum]
    have hl : (DerivBuffer.layoutOf t).layers
        = DerivBuffer.layersFrom t.n_inputs 0 (paramSize t.n_inputs t.layer_descriptions)
          t.layer_descriptions := rfl
    rw [hl, deriv_da_regions_sum]
    rfl

/-- Witness for C8 at the 2-input topology with layers of 3 and 1. -/
theorem buffer_layout_correct_witness :
    (0 < t8good.n_inputs ∧ t8good.layer_descriptions ≠ [] ∧
        ∀ d ∈ t8good.layer_descriptions, 0 < d.n_neurons) ∧
      (ParamBuffer.create t8good = some (ParamBuffer.layoutOf t8good) ∧
        DerivBuffer.create t8good = some (DerivBuffer.layoutOf t8good) ∧
        ((ParamBuffer.regions (ParamBuffer.layoutOf t8good).layers).map Prod.snd).sum
          = (ParamBuffer.layoutOf t8good).n_floats ∧
        contiguousFrom 0 (ParamBuffer.regions (ParamBuffer.layoutOf t8good).layers) = true ∧
        List.Pairwise (fun r s => r.1 + r.2 ≤ s.1)
          (ParamBuffer.regions (ParamBuffer.layoutOf t8good).layers) ∧
        List.Pairwise (fun r s => r.1 < s.1)
          (ParamBuffer.regions (ParamBuffer.layoutOf t8good).layers) ∧
        (ParamBuffer.layoutOf t8good).layers.map (fun L => (L.n, L.n_previous))
          = topologyDims t8good.n_inputs t8good.layer_descriptions ∧
        ((DerivBuffer.paramRegions (DerivBuffer.layoutOf t8good).layers
            ++ DerivBuffer.daRegions (DerivBuffer.layoutOf t8good).layers).map Prod.snd).sum
          = (DerivBuffer.layoutOf t8good).n_floats ∧
        contiguousFrom 0 (DerivBuffer.paramRegions (DerivBuffer.layoutOf t8good).layers
            ++ DerivBuffer.daRegions (DerivBuffer.layoutOf t8good).layers) = true ∧
        List.Pairwise (fun r s => r.1 + r.2 ≤ s.1)
          (DerivBuffer.paramRegions (DerivBuffer.layoutOf t8good).layers
            ++ DerivBuffer.daRegions (DerivBuffer.layoutOf t8good).layers) ∧
        List.Pairwise (fun r s => r.1 < s.1)
          (DerivBuffer.paramRegions (DerivBuffer.layoutOf t8good).layers
            ++ DerivBuffer.daRegions (DerivBuffer.layoutOf t8good).layers) ∧
        (DerivBuffer.layoutOf t8good).layers.map (fun L => (L.n, L.n_previous))
          = topologyDims t8good.n_inputs t8good.layer_descriptions ∧
        (DerivBuffer.layoutOf t8good).da_start
          = paramSize t8good.n_inputs t8good.layer_descriptions) :=
  ⟨⟨by decide, by simp [t8good], by decide⟩,
    buffer_layout_correct t8good (by decide) (by simp [t8good]) (by decide)⟩

/-! ## C7: training on an empty batch -/

/-- C7 counterexample: on a concrete network with the empty sample list,
`calculate_derivs` completes and returns the loss value `loss / n = 0 / 0`
(`NaN` in `f32`, `0` in this exact model) — no assertion fires on the empty
batch. -/
theorem calculate_derivs_empty_returns :
    (calculate_derivs netW rbZero dbufZero []).1 = 0 / (0 : ℚ) := by
  norm_num [calculate_derivs]

/-- C7 (amended).  For every empty batch the train path does *not* assert: the
sample loop of `calculate_derivs` is skipped, every (cleared) `dw`/`db`
accumulator is divided by the sample count `n = 0`, the result buffer is left
untouched, and the call returns the loss quotient `0 / 0` (`NaN` in `f32`). -/
theorem calculate_derivs_empty (net : List LayerRef) (rb : ℕ → ResultLayer)
    (dbuf : ℕ → DerivLayer) :
    calculate_derivs net rb dbuf [] =
      (0 / (0 : ℚ), rb, divideParams (clear_params dbuf) 0) := by
  norm_num [calculate_derivs]

/-! ## C10: the prototype forward pass diverges from the core kernel -/

/-- C10 (code-bug evaluation).  Failing input: topology `t10` (2 inputs, one
identity neuron), parameters `W = [1, 1]`, `b = [0]`, input `x = (1, 1)`.
The core kernel `forward_unchecked` computes the documented
`z = W·x + b = 2`; the prototype `NeuralNetwork::forward` overwrites the
accumulation (`*zk = wkg * a_prev_g` in its inner loop) and reads the weight
at stride `g * n_prev + k` (offset 2, which is `b[0]` — outside the weight
region), returning `0`. -/
theorem proto_forward_diverges_from_core :
    protoForward t10 x10 buf10 (((protoLayers t10).getD 0 default).offset_a) = 0 ∧
      ((forward_unchecked net10 x10 rbZero) 0).a 0 = 2 ∧
      protoForward t10 x10 buf10 (((protoLayers t10).getD 0 default).offset_a) ≠
        ((forward_unchecked net10 x10 rbZero) 0).a 0 := by
  refine ⟨?_, ?_, ?_⟩ <;>
    norm_num [protoForward, protoLayers, protoLayersFrom, protoForwardLayer, paramSize,
      updF, forward_unchecked, forwardStep, matmulReplace, forwardLayerLoop, netOfFlat,
      layerRefOfFlat, ParamBuffer.layoutOf, ParamBuffer.layersFrom, matEntryIndex,
      colEntryIndex, buf10, x10, t10, idAct, net10, rbZero, List.range_succ,
      Finset.sum_range_succ]

/-! ## Forward kernel lemmas (C2) -/

theorem consistentB_cons (L L2 : LayerRef) (rest : List LayerRef) :
    consistentB (L :: L2 :: rest) =
      ((L2.n_previous == L.n) && consistentB (L2 :: rest)) :=
  rfl

theorem consistentB_spec (net : List LayerRef) (hc : consistentB net = true) :
    ∀ u, u + 1 < net.length →
      (net.getD (u + 1) default).n_previous = (net.getD u default).n := by
  induction net with
  | nil => intro u hu; simp at hu
  | cons L rest ih =>
    intro u hu
    cases rest with
    | nil => simp at hu
    | cons L2 rest2 =>
      rw [consistentB_cons, Bool.and_eq_true] at hc
      have hhd : L2.n_previous = L.n := by
        have := hc.1
        rwa [beq_iff_eq] at this
      cases u with
      | zero => simpa using hhd
      | succ v =>
        have hv : v + 1 < (L2 :: rest2).length := by simpa using hu
        simpa using ih hc.2 v hv

theorem aPrevSpec_cons (L : LayerRef) (rest : List LayerRef) (x : ℕ → ℚ) (u : ℕ) :
    aPrevSpec (L :: rest) x (u + 1) = aPrevSpec rest (specA1 L x) u := by
  cases u with
  | zero => rfl
  | succ v => rfl

theorem specResults_getD (net : List LayerRef) :
    ∀ x u, u < net.length →
      zSpec net x u = specZ1 (net.getD u default) (aPrevSpec net x u) ∧
        aSpec net x u = specA1 (net.getD u default) (aPrevSpec net x u) := by
  induction net with
  | nil => intro x u hu; simp at hu
  | cons L rest ih =>
    intro x u hu
    cases u with
    | zero => exact ⟨rfl, rfl⟩
    | succ u' =>
      have hu' : u' < rest.length := by simpa using hu
      have h := ih (specA1 L x) u' hu'
      have e1 : zSpec (L :: rest) x (u' + 1) = zSpec rest (specA1 L x) u' := rfl
      have e2 : aSpec (L :: rest) x (u' + 1) = aSpec rest (specA1 L x) u' := rfl
      have e3 : (L :: rest).getD (u' + 1) default = rest.getD u' default := rfl
      rw [e1, e2, e3, aPrevSpec_cons]
      exact h

theorem forwardLayerLoop_aux (L : LayerRef) (z a : ℕ → ℚ) (m : ℕ) :
    (∀ k, ((List.range m).foldl
        (fun st k =>
          let z' := updF st.1 k (st.1 k + L.b k)
          (z', updF st.2 k (L.phi.apply (z' k)))) (z, a)).1 k
      = if k < m then z k + L.b k else z k) ∧
    (∀ k, ((List.range m).foldl
        (fun st k =>
          let z' := updF st.1 k (st.1 k + L.b k)
          (z', updF st.2 k (L.phi.apply (z' k)))) (z, a)).2 k
      = if k < m then L.phi.apply (z k + L.b k) else a k) := by
  induction m with
  | zero => constructor <;> intro k <;> simp
  | succ m ih =>
    obtain ⟨ihz, iha⟩ := ih
    constructor
    · intro k
      rw [foldl_range_succ]
      show updF _ m _ k = _
      by_cases hk : k = m
      · subst hk
        rw [updF_self, ihz]
        simp
      · rw [updF_ne _ _ _ _ hk, ihz]
        by_cases h2 : k < m
        · simp [h2, Nat.lt_succ_of_lt h2]
        · have h3 : ¬ k < m + 1 := by omega
          simp [h2, h3]
    · intro k
      rw [foldl_range_succ]
      show updF _ m (L.phi.apply (updF _ m _ m)) k = _
      by_cases hk : k = m
      · subst hk
        rw [updF_self, updF_self, ihz]
        simp
      · rw [updF_ne _ _ _ _ hk, iha]
        by_cases h2 : k < m
        · simp [h2, Nat.lt_succ_of_lt h2]
        · have h3 : ¬ k < m + 1 := by omega
          simp [h2, h3]

theorem forwardLayerLoop_spec (L : LayerRef) (z a : ℕ → ℚ) :
    (∀ k, (forwardLayerLoop L z a).1 k = if k < L.n then z k + L.b k else z k) ∧
    (∀ k, (forwardLayerLoop L z a).2 k
      = if k < L.n then L.phi.apply (z k + L.b k) else a k) :=
  forwardLayerLoop_aux L z a L.n

theorem forwardStep_ne (net : List LayerRef) (input : ℕ → ℚ) (rb : ℕ → ResultLayer)
    (u u' : ℕ) (h : u' ≠ u) : forwardStep net input rb u u' = rb u' := by
  unfold forwardStep
  exact updF_ne _ _ _ _ h

theorem forwardStep_self (net : List LayerRef) (input : ℕ → ℚ) (rb : ℕ → ResultLayer)
    (u : ℕ) (aPrev : ℕ → ℚ)
    (hprev : aPrev = match u with | 0 => input | u' + 1 => (rb u').a) :
    ∀ k, k < (net.getD u default).n →
      (forwardStep net input rb u u).z k
          = (∑ g ∈ Finset.range (net.getD u default).n_previous,
              (net.getD u default).w k g * aPrev g) + (net.getD u default).b k ∧
        (forwardStep net input rb u u).a k
          = (net.getD u default).phi.apply
              ((∑ g ∈ Finset.range (net.getD u default).n_previous,
                (net.getD u default).w k g * aPrev g) + (net.getD u default).b k) := by
  intro k hk
  subst hprev
  constructor
  · simp only [forwardStep, updF_self]
    rw [(forwardLayerLoop_spec _ _ _).1 k, if_pos hk]
    simp only [matmulReplace]
    rw [if_pos hk]
  · simp only [forwardStep, updF_self]
    rw [(forwardLayerLoop_spec _ _ _).2 k, if_pos hk]
    simp only [matmulReplace]
    rw [if_pos hk]

theorem forward_foldl_spec (net : List LayerRef) (x : ℕ → ℚ) (rb : ℕ → ResultLayer)
    (hc : consistentB net = true) :
    ∀ m, m ≤ net.length →
      (∀ u, m ≤ u → ((List.range m).foldl (forwardStep net x) rb) u = rb u) ∧
      (∀ u, u < m → ∀ k, k < (net.getD u default).n →
        (((List.range m).foldl (forwardStep net x) rb) u).z k = zSpec net x u k ∧
        (((List.range m).foldl (forwardStep net x) rb) u).a k = aSpec net x u k) := by
  intro m
  induction m with
  | zero => exact fun _ => ⟨fun u _ => rfl, fun u hu => absurd hu (Nat.not_lt_zero u)⟩
  | succ m ih =>
    intro hm
    obtain ⟨ihA, ihB⟩ := ih (Nat.le_of_succ_le hm)
    have hmlen : m < net.length := hm
    constructor
    · intro u hu
      rw [foldl_range_succ, forwardStep_ne net x _ m u (by omega), ihA u (by omega)]
    · intro u hu k hk
      rw [foldl_range_succ]
      by_cases hum : u = m
      · subst hum
        have hself := forwardStep_self net x ((List.range u).foldl (forwardStep net x) rb)
          u _ rfl k hk
        have hspec := specResults_getD net x u hmlen
        have hsum : (∑ g ∈ Finset.range (net.getD u default).n_previous,
              (net.getD u default).w k g *
                (match u with
                  | 0 => x
                  | u' + 1 => (((List.range u).foldl (forwardStep net x) rb) u').a) g)
            = ∑ g ∈ Finset.range (net.getD u default).n_previous,
                (net.getD u default).w k g * aPrevSpec net x u g := by
          refine Finset.sum_congr rfl ?_
          intro g hg
          have hg' := Finset.mem_range.mp hg
          cases u with
          | zero => rfl
          | succ u' =>
            have hcons := consistentB_spec net hc u' hmlen
            have hglt : g < (net.getD u' default).n := by rw [← hcons]; exact hg'
            have := (ihB u' (Nat.lt_succ_self u') g hglt).2
            rw [show aPrevSpec net x (u' + 1) g = aSpec net x u' g from rfl, ← this]
        constructor
        · rw [hself.1, hsum, hspec.1]
          rfl
        · rw [hself.2, hsum, hspec.2]
          rfl
      · have hu' : u < m := by omega
        rw [forwardStep_ne net x _ m u hum]
        exact ihB u hu' k hk

/-- C2.  For every input vector and result buffer, `forward_unchecked`
computes, for each layer `u` in increasing order,
`z_u = W_u · a_{u-1} + b_u` (a dense matrix-vector product plus bias, with
`a_0` the input vector) and `a_u[k] = phi_u(z_u[k])` element-wise, and writes
both `z_u` and `a_u` into the result buffer (the cells of layer `u`); the
final layer's activation cells (`u = net.length - 1`) are the network
output. -/
theorem forward_unchecked_computes (net : List LayerRef) (x : ℕ → ℚ)
    (rb : ℕ → ResultLayer) (hc : consistentB net = true) (u : ℕ)
    (hu : u < net.length) (k : ℕ) (hk : k < (net.getD u default).n) :
    (forward_unchecked net x rb u).z k
        = (∑ g ∈ Finset.range (net.getD u default).n_previous,
            (net.getD u default).w k g * aPrevSpec net x u g)
          + (net.getD u default).b k ∧
      (forward_unchecked net x rb u).a k
        = (net.getD u default).phi.apply ((forward_unchecked net x rb u).z k) ∧
      (forward_unchecked net x rb u).z k = zSpec net x u k ∧
      (forward_unchecked net x rb u).a k = aSpec net x u k := by
  have e : forward_unchecked net x rb
      = (List.range net.length).foldl (forwardStep net x) rb := rfl
  have h := (forward_foldl_spec net x rb hc net.length le_rfl).2 u hu k hk
  have hspec := specResults_getD net x u hu
  rw [e]
  refine ⟨?_, ?_, h.1, h.2⟩
  · rw [h.1, hspec.1]; rfl
  · rw [h.2, h.1, hspec.2, hspec.1]; rfl

/-- Witness for C2 on the concrete two-layer network `netW`, layer 1,
neuron 0. -/
theorem forward_unchecked_computes_witness :
    (consistentB netW = true ∧ 1 < netW.length ∧ 0 < (netW.getD 1 default).n) ∧
      ((forward_unchecked netW xW rbZero 1).z 0
          = (∑ g ∈ Finset.range (netW.getD 1 default).n_previous,
              (netW.getD 1 default).w 0 g * aPrevSpec netW xW 1 g)
            + (netW.getD 1 default).b 0 ∧
        (forward_unchecked netW xW rbZero 1).a 0
          = (netW.getD 1 default).phi.apply ((forward_unchecked netW xW rbZero 1).z 0) ∧
        (forward_unchecked netW xW rbZero 1).z 0 = zSpec netW xW 1 0 ∧
        (forward_unchecked netW xW rbZero 1).a 0 = aSpec netW xW 1 0) :=
  ⟨⟨by decide, by decide, by decide⟩,
    forward_unchecked_computes netW xW rbZero (by decide) 1 (by decide) 0 (by decide)⟩

/-! ## Backpropagation kernel lemmas (C1, C3) -/

theorem zeroFirst_succ (n : ℕ) (f : ℕ → ℚ) :
    zeroFirst (n + 1) f = updF (zeroFirst n f) n 0 := by
  unfold zeroFirst
  rw [foldl_range_succ]

theorem zeroFirst_spec (n : ℕ) (f : ℕ → ℚ) :
    ∀ g, zeroFirst n f g = if g < n then 0 else f g := by
  induction n with
  | zero => intro g; simp [zeroFirst]
  | succ n ih =>
    intro g
    rw [zeroFirst_succ]
    by_cases hg : g = n
    · subst hg; rw [updF_self]; simp
    · rw [updF_ne _ _ _ _ hg, ih g]
      by_cases h2 : g < n
      · simp [h2, Nat.lt_succ_of_lt h2]
      · have h3 : ¬ g < n + 1 := by omega
        simp [h2, h3]

theorem bpGLoop_spec (k : ℕ) (dak phid : ℚ) (aPrev : ℕ → ℚ) (w : ℕ → ℕ → ℚ)
    (st : BPState) (nG : ℕ) :
    (bpGLoop k dak phid aPrev w nG st).db = st.db ∧
      (∀ k' g', (bpGLoop k dak phid aPrev w nG st).dw k' g'
        = if k' = k ∧ g' < nG then st.dw k' g' + dak * phid * aPrev g'
          else st.dw k' g') ∧
      (bpGLoop k dak phid aPrev w nG st).daPrev
        = st.daPrev.map (fun dap g' =>
            if g' < nG then dap g' + dak * phid * w k g' else dap g') := by
  induction nG with
  | zero =>
    refine ⟨rfl, fun k' g' => by simp [bpGLoop], ?_⟩
    cases h : st.daPrev with
    | none => simp [bpGLoop, h]
    | some dap => simp [bpGLoop, h]
  | succ m ih =>
    obtain ⟨ihdb, ihdw, ihda⟩ := ih
    have hstep : bpGLoop k dak phid aPrev w (m + 1) st
        = (fun st g =>
            let st := { st with dw := updM st.dw k g (st.dw k g + dak * phid * aPrev g) }
            match st.daPrev with
            | none => st
            | some dap =>
              { st with daPrev := some (updF dap g (dap g + dak * phid * w k g)) })
          (bpGLoop k dak phid aPrev w m st) m := by
      unfold bpGLoop
      rw [foldl_range_succ]
    refine ⟨?_, ?_, ?_⟩
    · rw [hstep]
      cases h : (bpGLoop k dak phid aPrev w m st).daPrev with
      | none => simp only [h]; exact ihdb
      | some dap => simp only [h]; exact ihdb
    · intro k' g'
      rw [hstep]
      have hdw : ∀ st' : BPState,
          (match st'.daPrev with
            | none => st'
            | some dap =>
              { st' with daPrev := some (updF dap m (dap m + dak * phid * w k m)) }).dw
            = st'.dw := by
        intro st'
        cases st'.daPrev <;> rfl
      rw [hdw]
      show updM (bpGLoop k dak phid aPrev w m st).dw k m
          ((bpGLoop k dak phid aPrev w m st).dw k m + dak * phid * aPrev m) k' g' = _
      have hkm := ihdw k m
      simp only [Nat.lt_irrefl, and_false, if_false] at hkm
      unfold updM
      by_cases hk : k' = k
      · subst hk
        rw [updF_self]
        by_cases hg : g' = m
        · subst hg
          rw [updF_self, hkm]
          simp [Nat.lt_succ_self]
        · rw [updF_ne _ _ _ _ hg, ihdw]
          by_cases h2 : g' < m
          · simp [h2, Nat.lt_succ_of_lt h2]
          · have h3 : ¬ g' < m + 1 := by omega
            simp [h2, h3]
      · rw [updF_ne _ _ _ _ hk, ihdw]
        simp [hk]
    · rw [hstep]
      cases h : (bpGLoop k dak phid aPrev w m st).daPrev with
      | none =>
        simp only [h]
        rw [h] at ihda
        cases h0 : st.daPrev with
        | none => rfl
        | some dap => rw [h0] at ihda; simp at ihda
      | some dap =>
        simp only [h]
        rw [h] at ihda
        cases h0 : st.daPrev with
        | none => rw [h0] at ihda; simp at ihda
        | some dap0 =>
          rw [h0] at ihda
          simp only [Option.map_some'] at ihda ⊢
          have hdap : dap = fun g' =>
              if g' < m then dap0 g' + dak * phid * w k g' else dap0 g' := by
            exact Option.some.inj ihda
          subst hdap
          congr 1
          funext g'
          by_cases hg : g' = m
          · subst hg
            rw [updF_self]
            simp [Nat.lt_succ_self, Nat.lt_irrefl]
          · rw [updF_ne _ _ _ _ hg]
            by_cases h2 : g' < m
            · simp [h2, Nat.lt_succ_of_lt h2]
            · have h3 : ¬ g' < m + 1 := by omega
              simp [h2, h3]

theorem bpKLoop_aux (is_out : Bool) (aPrev : ℕ → ℚ) (L : LayerRef) (dl : DerivLayer)
    (daPrev0 : Option (ℕ → ℚ)) (rl : ResultLayer) (y : ℕ → ℚ) (m : ℕ) :
    (∀ k', ((List.range m).foldl
        (fun st k =>
          bpGLoop k (if is_out then rl.a k - y k else dl.da k) (L.phi.deriv (rl.z k))
            aPrev L.w L.n_previous
            { st with db := updF st.db k (st.db k
                + (if is_out then rl.a k - y k else dl.da k) * L.phi.deriv (rl.z k)) })
        (⟨dl.db, dl.dw, daPrev0.map (zeroFirst L.n_previous)⟩ : BPState)).db k'
      = if k' < m
        then dl.db k'
          + (if is_out then rl.a k' - y k' else dl.da k') * L.phi.deriv (rl.z k')
        else dl.db k') ∧
    (∀ k' g', ((List.range m).foldl
        (fun st k =>
          bpGLoop k (if is_out then rl.a k - y k else dl.da k) (L.phi.deriv (rl.z k))
            aPrev L.w L.n_previous
            { st with db := updF st.db k (st.db k
                + (if is_out then rl.a k - y k else dl.da k) * L.phi.deriv (rl.z k)) })
        (⟨dl.db, dl.dw, daPrev0.map (zeroFirst L.n_previous)⟩ : BPState)).dw k' g'
      = if k' < m ∧ g' < L.n_previous
        then dl.dw k' g'
          + (if is_out then rl.a k' - y k' else dl.da k') * L.phi.deriv (rl.z k')
            * aPrev g'
        else dl.dw k' g') ∧
    (((List.range m).foldl
        (fun st k =>
          bpGLoop k (if is_out then rl.a k - y k else dl.da k) (L.phi.deriv (rl.z k))
            aPrev L.w L.n_previous
            { st with db := updF st.db k (st.db k
                + (if is_out then rl.a k - y k else dl.da k) * L.phi.deriv (rl.z k)) })
        (⟨dl.db, dl.dw, daPrev0.map (zeroFirst L.n_previous)⟩ : BPState)).daPrev
      = daPrev0.map (fun dap g' =>
          if g' < L.n_previous
          then ∑ k' ∈ Finset.range m,
            (if is_out then rl.a k' - y k' else dl.da k') * L.phi.deriv (rl.z k')
              * L.w k' g'
          else dap g')) := by
  induction m with
  | zero =>
    refine ⟨fun k' => by simp, fun k' g' => by simp, ?_⟩
    cases daPrev0 with
    | none => simp
    | some dap =>
      simp only [List.range_zero, List.foldl_nil, Option.map_some']
      congr 1
      funext g'
      rw [zeroFirst_spec]
      simp
  | succ m ih =>
    obtain ⟨ihdb, ihdw, ihda⟩ := ih
    rw [foldl_range_succ]
    set F := (List.range m).foldl
        (fun st k =>
          bpGLoop k (if is_out then rl.a k - y k else dl.da k) (L.phi.deriv (rl.z k))
            aPrev L.w L.n_previous
            { st with db := updF st.db k (st.db k
                + (if is_out then rl.a k - y k else dl.da k) * L.phi.deriv (rl.z k)) })
        (⟨dl.db, dl.dw, daPrev0.map (zeroFirst L.n_previous)⟩ : BPState) with hF
    have hg := bpGLoop_spec m (if is_out then rl.a m - y m else dl.da m)
      (L.phi.deriv (rl.z m)) aPrev L.w
      { F with db := updF F.db m (F.db m
          + (if is_out then rl.a m - y m else dl.da m) * L.phi.deriv (rl.z m)) }
      L.n_previous
    refine ⟨?_, ?_, ?_⟩
    · intro k'
      rw [hg.1]
      show updF F.db m _ k' = _
      by_cases hk : k' = m
      · subst hk
        rw [updF_self, ihdb]
        simp [Nat.lt_succ_self, Nat.lt_irrefl]
      · rw [updF_ne _ _ _ _ hk, ihdb]
        by_cases h2 : k' < m
        · simp [h2, Nat.lt_succ_of_lt h2]
        · have h3 : ¬ k' < m + 1 := by omega
          simp [h2, h3]
    · intro k' g'
      rw [hg.2.1 k' g']
      show (if k' = m ∧ g' < L.n_previous
          then F.dw k' g' + _ else F.dw k' g') = _
      by_cases hk : k' = m
      · subst hk
        by_cases hgp : g' < L.n_previous
        · rw [if_pos ⟨rfl, hgp⟩, ihdw]
          simp [Nat.lt_succ_self, Nat.lt_irrefl, hgp]
        · rw [if_neg (by tauto), ihdw]
          simp [hgp]
      · rw [if_neg (by tauto), ihdw]
        by_cases h2 : k' < m
        · by_cases hgp : g' < L.n_previous
          · simp [h2, Nat.lt_succ_of_lt h2, hgp]
          · simp [hgp]
        · have h3 : ¬ k' < m + 1 := by omega
          simp [h2, h3, hk]
    · rw [hg.2.2]
      show F.daPrev.map _ = _
      rw [ihda]
      cases daPrev0 with
      | none => simp
      | some dap =>
        simp only [Option.map_some']
        congr 1
        funext g'
        by_cases hgp : g' < L.n_previous
        · simp only [hgp, if_true]
          rw [Finset.sum_range_succ]
        · simp [hgp]

theorem back_propagate_layer_spec (is_out : Bool) (aPrev : ℕ → ℚ) (L : LayerRef)
    (dl : DerivLayer) (daPrev0 : Option (ℕ → ℚ)) (rl : ResultLayer) (y : ℕ → ℚ) :
    (∀ k', (back_propagate_layer is_out aPrev L dl daPrev0 rl y).db k'
      = if k' < L.n
        then dl.db k'
          + (if is_out then rl.a k' - y k' else dl.da k') * L.phi.deriv (rl.z k')
        else dl.db k') ∧
    (∀ k' g', (back_propagate_layer is_out aPrev L dl daPrev0 rl y).dw k' g'
      = if k' < L.n ∧ g' < L.n_previous
        then dl.dw k' g'
          + (if is_out then rl.a k' - y k' else dl.da k') * L.phi.deriv (rl.z k')
            * aPrev g'
        else dl.dw k' g') ∧
    ((back_propagate_layer is_out aPrev L dl daPrev0 rl y).daPrev
      = daPrev0.map (fun dap g' =>
          if g' < L.n_previous
          then ∑ k' ∈ Finset.range L.n,
            (if is_out then rl.a k' - y k' else dl.da k') * L.phi.deriv (rl.z k')
              * L.w k' g'
          else dap g')) :=
  bpKLoop_aux is_out aPrev L dl daPrev0 rl y L.n

theorem bpSampleStep_spec (net : List LayerRef) (rb : ℕ → ResultLayer) (x y : ℕ → ℚ)
    (l0 : ℚ) (dbuf : ℕ → DerivLayer) (u : ℕ) :
    ((bpSampleStep net rb x y (l0, dbuf) u).1
      = if u + 1 = net.length
        then l0 + ∑ k ∈ Finset.range (net.getD u default).n, ((rb u).a k - y k) ^ 2
        else l0) ∧
    (∀ v, v ≠ u → v + 1 ≠ u → (bpSampleStep net rb x y (l0, dbuf) u).2 v = dbuf v) ∧
    (((bpSampleStep net rb x y (l0, dbuf) u).2 u).da = (dbuf u).da) ∧
    (∀ k, ((bpSampleStep net rb x y (l0, dbuf) u).2 u).db k
      = if k < (net.getD u default).n
        then (dbuf u).db k
          + (if u + 1 = net.length then (rb u).a k - y k else (dbuf u).da k)
            * (net.getD u default).phi.deriv ((rb u).z k)
        else (dbuf u).db k) ∧
    (∀ k g, ((bpSampleStep net rb x y (l0, dbuf) u).2 u).dw k g
      = if k < (net.getD u default).n ∧ g < (net.getD u default).n_previous
        then (dbuf u).dw k g
          + (if u + 1 = net.length then (rb u).a k - y k else (dbuf u).da k)
            * (net.getD u default).phi.deriv ((rb u).z k)
            * aPrevRead x rb u g
        else (dbuf u).dw k g) ∧
    (∀ u', u = u' + 1 → ∀ g, ((bpSampleStep net rb x y (l0, dbuf) u).2 u').da g
      = if g < (net.getD u default).n_previous
        then ∑ k ∈ Finset.range (net.getD u default).n,
          (if u + 1 = net.length then (rb u).a k - y k else (dbuf u).da k)
            * (net.getD u default).phi.deriv ((rb u).z k) * (net.getD u default).w k g
        else (dbuf u').da g) ∧
    (∀ u', u = u' + 1 → ((bpSampleStep net rb x y (l0, dbuf) u).2 u').db = (dbuf u').db
      ∧ ((bpSampleStep net rb x y (l0, dbuf) u).2 u').dw = (dbuf u').dw) := by
  cases u with
  | zero =>
    obtain ⟨hdb, hdw, hda⟩ := back_propagate_layer_spec (decide (0 + 1 = net.length))
      (aPrevRead x rb 0) (net.getD 0 default) (dbuf 0) none (rb 0) y
    have hpair : bpSampleStep net rb x y (l0, dbuf) 0
        = (if decide (0 + 1 = net.length) = true
            then (List.range (net.getD 0 default).n).foldl
              (fun l k => l + ((rb 0).a k - y k) ^ 2) l0
            else l0,
          updF dbuf 0 { dbuf 0 with
            db := (back_propagate_layer (decide (0 + 1 = net.length)) (aPrevRead x rb 0)
              (net.getD 0 default) (dbuf 0) none (rb 0) y).db,
            dw := (back_propagate_layer (decide (0 + 1 = net.length)) (aPrevRead x rb 0)
              (net.getD 0 default) (dbuf 0) none (rb 0) y).dw }) := rfl
    rw [hpair]
    refine ⟨?_, ?_, rfl, ?_, ?_, ?_, ?_⟩
    · by_cases hout : 0 + 1 = net.length
      · rw [if_pos (by simpa using hout), if_pos hout, foldl_add_sum]
      · rw [if_neg (by simpa using hout), if_neg hout]
    · intro v hv _
      exact updF_ne _ _ _ _ hv
    · intro k
      show (back_propagate_layer (decide (0 + 1 = net.length)) (aPrevRead x rb 0)
        (net.getD 0 default) (dbuf 0) none (rb 0) y).db k = _
      rw [hdb k]
      by_cases hout : 0 + 1 = net.length <;> simp [hout]
    · intro k g
      show (back_propagate_layer (decide (0 + 1 = net.length)) (aPrevRead x rb 0)
        (net.getD 0 default) (dbuf 0) none (rb 0) y).dw k g = _
      rw [hdw k g]
      by_cases hout : 0 + 1 = net.length <;> simp [hout]
    · intro u' h
      exact absurd h (by omega)
    · intro u' h
      exact absurd h (by omega)
  | succ u' =>
    obtain ⟨hdb, hdw, hda⟩ := back_propagate_layer_spec (decide (u' + 1 + 1 = net.length))
      (aPrevRead x rb (u' + 1)) (net.getD (u' + 1) default) (dbuf (u' + 1))
      (some ((dbuf u').da)) (rb (u' + 1)) y
    rw [Option.map_some'] at hda
    have hpair : bpSampleStep net rb x y (l0, dbuf) (u' + 1)
        = (if decide (u' + 1 + 1 = net.length) = true
            then (List.range (net.getD (u' + 1) default).n).foldl
              (fun l k => l + ((rb (u' + 1)).a k - y k) ^ 2) l0
            else l0,
          match (back_propagate_layer (decide (u' + 1 + 1 = net.length))
              (aPrevRead x rb (u' + 1)) (net.getD (u' + 1) default) (dbuf (u' + 1))
              (some ((dbuf u').da)) (rb (u' + 1)) y).daPrev with
          | some dap =>
            updF (updF dbuf (u' + 1) { dbuf (u' + 1) with
                db := (back_propagate_layer (decide (u' + 1 + 1 = net.length))
                  (aPrevRead x rb (u' + 1)) (net.getD (u' + 1) default) (dbuf (u' + 1))
                  (some ((dbuf u').da)) (rb (u' + 1)) y).db,
                dw := (back_propagate_layer (decide (u' + 1 + 1 = net.length))
                  (aPrevRead x rb (u' + 1)) (net.getD (u' + 1) default) (dbuf (u' + 1))
                  (some ((dbuf u').da)) (rb (u' + 1)) y).dw }) u'
              { (updF dbuf (u' + 1) { dbuf (u' + 1) with
                  db := (back_propagate_layer (decide (u' + 1 + 1 = net.length))
                    ((rb u').a) (net.getD (u' + 1) default) (dbuf (u' + 1))
                    (some ((dbuf u').da)) (rb (u' + 1)) y).db,
                  dw := (back_propagate_layer (decide (u' + 1 + 1 = net.length))
                    ((rb u').a) (net.getD (u' + 1) default) (dbuf (u' + 1))
                    (some ((dbuf u').da)) (rb (u' + 1)) y).dw }) u' with
                da := dap }
          | none =>
            updF dbuf (u' + 1) { dbuf (u' + 1) with
              db := (back_propagate_layer (decide (u' + 1 + 1 = net.length))
                (aPrevRead x rb (u' + 1)) (net.getD (u' + 1) default) (dbuf (u' + 1))
                (some ((dbuf u').da)) (rb (u' + 1)) y).db,
              dw := (back_propagate_layer (decide (u' + 1 + 1 = net.length))
                (aPrevRead x rb (u' + 1)) (net.getD (u' + 1) default) (dbuf (u' + 1))
                (some ((dbuf u').da)) (rb (u' + 1)) y).dw }) := rfl
    rw [hpair, hda]
    refine ⟨?_, ?_, ?_, ?_, ?_, ?_, ?_⟩
    · by_cases hout : u' + 1 + 1 = net.length
      · rw [if_pos (by simpa using hout), if_pos hout, foldl_add_sum]
      · rw [if_neg (by simpa using hout), if_neg hout]
    · intro v hv hv1
      have hv' : v ≠ u' := fun h => hv1 (by omega)
      show updF (updF dbuf (u' + 1) _) u' _ v = dbuf v
      rw [updF_ne _ _ _ _ hv', updF_ne _ _ _ _ hv]
    · show (updF (updF dbuf (u' + 1) _) u' _ (u' + 1)).da = _
      rw [updF_ne _ _ _ _ (by omega : u' + 1 ≠ u'), updF_self]
    · intro k
      show (updF (updF dbuf (u' + 1) _) u' _ (u' + 1)).db k = _
      rw [updF_ne _ _ _ _ (by omega : u' + 1 ≠ u'), updF_self]
      show (back_propagate_layer (decide (u' + 1 + 1 = net.length))
        (aPrevRead x rb (u' + 1)) (net.getD (u' + 1) default) (dbuf (u' + 1))
        (some ((dbuf u').da)) (rb (u' + 1)) y).db k = _
      rw [hdb k]
      by_cases hout : u' + 1 + 1 = net.length <;> simp [hout]
    · intro k g
      show (updF (updF dbuf (u' + 1) _) u' _ (u' + 1)).dw k g = _
      rw [updF_ne _ _ _ _ (by omega : u' + 1 ≠ u'), updF_self]
      show (back_propagate_layer (decide (u' + 1 + 1 = net.length))
        (aPrevRead x rb (u' + 1)) (net.getD (u' + 1) default) (dbuf (u' + 1))
        (some ((dbuf u').da)) (rb (u' + 1)) y).dw k g = _
      rw [hdw k g]
      by_cases hout : u' + 1 + 1 = net.length <;> simp [hout]
    · intro v hv g
      have hv' : v = u' := by omega
      subst hv'
      show (updF (updF dbuf (v + 1) _) v _ v).da g = _
      rw [updF_self]
      by_cases hout : v + 1 + 1 = net.length <;> simp [hout]
    · intro v hv
      have hv' : v = u' := by omega
      subst hv'
      constructor
      · show (updF (updF dbuf (v + 1) _) v _ v).db = _
        rw [updF_self]
        show (updF dbuf (v + 1) _ v).db = _
        rw [updF_ne _ _ _ _ (by omega : v ≠ v + 1)]
      · show (updF (updF dbuf (v + 1) _) v _ v).dw = _
        rw [updF_self]
        show (updF dbuf (v + 1) _ v).dw = _
        rw [updF_ne _ _ _ _ (by omega : v ≠ v + 1)]

theorem eAt_output (net : List LayerRef) (x y : ℕ → ℚ) :
    eAt net x y (net.length - 1) = fun k => aSpec net x (net.length - 1) k - y k := by
  unfold eAt
  rw [Nat.sub_self]
  rfl

theorem eAt_step (net : List LayerRef) (x y : ℕ → ℚ) (u : ℕ) (hu : u + 1 < net.length) :
    eAt net x y u = fun g =>
      ∑ k ∈ Finset.range (net.getD (u + 1) default).n,
        eAt net x y (u + 1) k
          * (net.getD (u + 1) default).phi.deriv (zSpec net x (u + 1) k)
          * (net.getD (u + 1) default).w k g := by
  unfold eAt
  have hd : net.length - 1 - u = (net.length - 1 - (u + 1)) + 1 := by omega
  have hidx : net.length - 1 - (net.length - 1 - (u + 1)) = u + 1 := by omega
  rw [hd]
  simp only [errSpec, hidx]

/-- When the result buffer holds the forward pass's activations, the
`a_prev` read by the reverse walk agrees with the specification's previous
activations at every in-range coordinate. -/
theorem aPrevRead_spec (net : List LayerRef) (x : ℕ → ℚ) (rb : ℕ → ResultLayer)
    (hc : consistentB net = true)
    (hrb : ∀ u, u < net.length → ∀ k, k < (net.getD u default).n →
      (rb u).z k = zSpec net x u k ∧ (rb u).a k = aSpec net x u k)
    (u : ℕ) (hu : u < net.length) :
    ∀ g, g < (net.getD u default).n_previous →
      aPrevRead x rb u g = aPrevSpec net x u g := by
  intro g hg
  cases u with
  | zero => rfl
  | succ v =>
    have hcons := consistentB_spec net hc v hu
    have hglt : g < (net.getD v default).n := by rw [← hcons]; exact hg
    exact (hrb v (by omega) g hglt).2

theorem bp_rev_fold_spec (net : List LayerRef) (x y : ℕ → ℚ) (rb : ℕ → ResultLayer)
    (hc : consistentB net = true)
    (hrb : ∀ u, u < net.length → ∀ k, k < (net.getD u default).n →
      (rb u).z k = zSpec net x u k ∧ (rb u).a k = aSpec net x u k) :
    ∀ m, m ≤ net.length → ∀ l0 dbuf,
      (∀ u, u + 1 = m → u + 1 < net.length → ∀ k, k < (net.getD u default).n →
        (dbuf u).da k = eAt net x y u k) →
      (((List.range m).reverse.foldl (bpSampleStep net rb x y) (l0, dbuf)).1
        = if m = net.length ∧ 0 < m then l0 + sampleLoss net x y else l0) ∧
      (∀ u, m ≤ u →
        ((List.range m).reverse.foldl (bpSampleStep net rb x y) (l0, dbuf)).2 u = dbuf u) ∧
      (∀ u, u < m → ∀ k, k < (net.getD u default).n →
        (((List.range m).reverse.foldl (bpSampleStep net rb x y) (l0, dbuf)).2 u).db k
          = (dbuf u).db k + dbInc net x y u k) ∧
      (∀ u, u < m → ∀ k, k < (net.getD u default).n →
        ∀ g, g < (net.getD u default).n_previous →
        (((List.range m).reverse.foldl (bpSampleStep net rb x y) (l0, dbuf)).2 u).dw k g
          = (dbuf u).dw k g + dwInc net x y u k g) ∧
      (∀ u, u + 1 < m → ∀ g, g < (net.getD u default).n →
        (((List.range m).reverse.foldl (bpSampleStep net rb x y) (l0, dbuf)).2 u).da g
          = eAt net x y u g) ∧
      (∀ u, u + 1 = m →
        (((List.range m).reverse.foldl (bpSampleStep net rb x y) (l0, dbuf)).2 u).da
          = (dbuf u).da) := by
  intro m
  induction m with
  | zero =>
    intro hm l0 dbuf hpre
    refine ⟨by simp, fun u _ => rfl, ?_, ?_, ?_, ?_⟩
    · intro u hu; exact absurd hu (Nat.not_lt_zero u)
    · intro u hu; exact absurd hu (Nat.not_lt_zero u)
    · intro u hu; exact absurd hu (by omega)
    · intro u hu; exact absurd hu (by omega)
  | succ m ih =>
    intro hm l0 dbuf hpre
    have hmU : m < net.length := hm
    have hrev : (List.range (m + 1)).reverse = m :: (List.range m).reverse := by
      rw [List.range_succ, List.reverse_append]
      rfl
    rw [hrev]
    simp only [List.foldl_cons]
    obtain ⟨hs1, hs2, hs3, hs4, hs5, hs6, hs7⟩ := bpSampleStep_spec net rb x y l0 dbuf m
    -- identification of the step's error term with the spec error signal
    have hdak : ∀ k, k < (net.getD m default).n →
        (if m + 1 = net.length then (rb m).a k - y k else (dbuf m).da k)
          = eAt net x y m k := by
      intro k hk
      by_cases hout : m + 1 = net.length
      · rw [if_pos hout, (hrb m hmU k hk).2]
        have hm1 : m = net.length - 1 := by omega
        rw [hm1, eAt_output]
      · rw [if_neg hout]
        exact hpre m rfl (by omega) k hk
    have hphid : ∀ k, k < (net.getD m default).n →
        (net.getD m default).phi.deriv ((rb m).z k)
          = (net.getD m default).phi.deriv (zSpec net x m k) := by
      intro k hk
      rw [(hrb m hmU k hk).1]
    have haPrev : ∀ g, g < (net.getD m default).n_previous →
        aPrevRead x rb m g = aPrevSpec net x m g :=
      aPrevRead_spec net x rb hc hrb m hmU
    have heta : bpSampleStep net rb x y (l0, dbuf) m
        = ((bpSampleStep net rb x y (l0, dbuf) m).1,
           (bpSampleStep net rb x y (l0, dbuf) m).2) := rfl
    rw [heta]
    -- the stepped pair satisfies the invariant one level down
    have hpre1 : ∀ u, u + 1 = m → u + 1 < net.length → ∀ k, k < (net.getD u default).n →
        ((bpSampleStep net rb x y (l0, dbuf) m).2 u).da k = eAt net x y u k := by
      intro u hu hu2 k hk
      have hcons := consistentB_spec net hc u (by omega)
      have hcons' : (net.getD m default).n_previous = (net.getD u default).n := by
        rw [← hu]; exact hcons
      have hk2 : k < (net.getD m default).n_previous := by rw [hcons']; exact hk
      rw [hs6 u hu.symm k, if_pos hk2, eAt_step net x y u (by omega), hu]
      refine Finset.sum_congr rfl ?_
      intro k' hk'
      rw [hdak k' (Finset.mem_range.mp hk'), hphid k' (Finset.mem_range.mp hk')]
    obtain ⟨ih1, ih2, ih3, ih4, ih5, ih6⟩ :=
      ih (by omega) (bpSampleStep net rb x y (l0, dbuf) m).1
        (bpSampleStep net rb x y (l0, dbuf) m).2 hpre1
    have hl1 : (bpSampleStep net rb x y (l0, dbuf) m).1
        = if m + 1 = net.length then l0 + sampleLoss net x y else l0 := by
      rw [hs1]
      by_cases hout : m + 1 = net.length
      · rw [if_pos hout, if_pos hout]
        congr 1
        unfold sampleLoss
        have hm1 : net.length - 1 = m := by omega
        rw [hm1]
        refine Finset.sum_congr rfl ?_
        intro k hk
        rw [(hrb m hmU k (Finset.mem_range.mp hk)).2]
      · rw [if_neg hout, if_neg hout]
    refine ⟨?_, ?_, ?_, ?_, ?_, ?_⟩
    · rw [ih1, hl1]
      by_cases hout : m + 1 = net.length
      · have hne : ¬ (m = net.length ∧ 0 < m) := by omega
        rw [if_pos hout, if_neg hne, if_pos (by omega : m + 1 = net.length ∧ 0 < m + 1)]
      · have hne : ¬ (m = net.length ∧ 0 < m) := by omega
        rw [if_neg hout, if_neg hne, if_neg (by omega : ¬ (m + 1 = net.length ∧ 0 < m + 1))]
    · intro u hu
      rw [ih2 u (by omega)]
      exact hs2 u (by omega) (by omega)
    · intro u hu k hk
      by_cases hum : u = m
      · rw [hum] at hk ⊢
        rw [ih2 m le_rfl]
        rw [hs4 k, if_pos hk, hdak k hk, hphid k hk]
        rfl
      · have hu' : u < m := by omega
        rw [ih3 u hu' k hk]
        congr 1
        by_cases hum1 : u + 1 = m
        · exact congrFun (hs7 u hum1.symm).1 k
        · exact congrArg (fun d => d.db k) (hs2 u hum (by omega))
    · intro u hu k hk g hg
      by_cases hum : u = m
      · rw [hum] at hk hg ⊢
        rw [ih2 m le_rfl]
        rw [hs5 k g, if_pos ⟨hk, hg⟩, hdak k hk, hphid k hk, haPrev g hg]
        rfl
      · have hu' : u < m := by omega
        rw [ih4 u hu' k hk g hg]
        congr 1
        by_cases hum1 : u + 1 = m
        · exact congrFun (congrFun (hs7 u hum1.symm).2 k) g
        · exact congrArg (fun d => d.dw k g) (hs2 u hum (by omega))
    · intro u hu g hg
      by_cases hum1 : u + 1 = m
      · rw [ih6 u hum1]
        exact hpre1 u hum1 (by omega) g hg
      · exact ih5 u (by omega) g hg
    · intro u hu
      have hum : u = m := by omega
      rw [hum]
      rw [ih2 m le_rfl]
      exact hs3
/-- Closed form of one whole `back_propagate_sample` call: the returned loss is
the sample loss, the result buffer holds the forward pass, and every in-range
`db`/`dw` accumulator cell receives exactly its per-sample gradient increment
on top of its previous value, while every non-output layer's `da` holds the
back-propagated error signal and the output layer's `da` is untouched. -/
theorem back_propagate_sample_closed (net : List LayerRef) (x y : ℕ → ℚ)
    (rb : ℕ → ResultLayer) (dbuf : ℕ → DerivLayer)
    (hc : consistentB net = true) (hlen : 0 < net.length) :
    (back_propagate_sample net rb dbuf x y).1 = sampleLoss net x y ∧
    (back_propagate_sample net rb dbuf x y).2.1 = forward_unchecked net x rb ∧
    (∀ u, u < net.length → ∀ k, k < (net.getD u default).n →
      ((back_propagate_sample net rb dbuf x y).2.2 u).db k
        = (dbuf u).db k + dbInc net x y u k) ∧
    (∀ u, u < net.length → ∀ k, k < (net.getD u default).n →
      ∀ g, g < (net.getD u default).n_previous →
      ((back_propagate_sample net rb dbuf x y).2.2 u).dw k g
        = (dbuf u).dw k g + dwInc net x y u k g) ∧
    (∀ u, u + 1 < net.length → ∀ g, g < (net.getD u default).n →
      ((back_propagate_sample net rb dbuf x y).2.2 u).da g = eAt net x y u g) ∧
    ((back_propagate_sample net rb dbuf x y).2.2 (net.length - 1)).da
      = (dbuf (net.length - 1)).da := by
  have e : forward_unchecked net x rb
      = (List.range net.length).foldl (forwardStep net x) rb := rfl
  have hrb : ∀ u, u < net.length → ∀ k, k < (net.getD u default).n →
      (forward_unchecked net x rb u).z k = zSpec net x u k ∧
      (forward_unchecked net x rb u).a k = aSpec net x u k := by
    intro u hu k hk
    rw [e]
    exact (forward_foldl_spec net x rb hc net.length le_rfl).2 u hu k hk
  obtain ⟨h1, h2, h3, h4, h5, h6⟩ :=
    bp_rev_fold_spec net x y (forward_unchecked net x rb) hc hrb net.length le_rfl
      0 dbuf (by intro u hu1 hu2; exact absurd hu2 (by omega))
  refine ⟨?_, rfl, h3, h4, h5, h6 (net.length - 1) (by omega)⟩
  rw [if_pos ⟨rfl, hlen⟩, zero_add] at h1
  exact h1
/-- C1: for every sample `(x, y)`, `back_propagate_sample` walks the layers
from last to first; its per-layer error signal `e` is `a - y` at the output
layer (whose squared entries sum to the sample's loss contribution) and the
chain-rule sum `∑ k, e_k · φ'(z_k) · W[k][g]` written into `da` of the
previous layer (freshly overwritten each sample, i.e. zeroed before the `k`
loop); every `db[k]` cell is incremented by `e_k · φ'(z_k)` and every
`dw[k][g]` cell by `e_k · φ'(z_k) · a_prev[g]`, while the output layer's own
`da` is never touched. -/
theorem back_propagate_sample_spec (net : List LayerRef) (x y : ℕ → ℚ)
    (rb : ℕ → ResultLayer) (dbuf : ℕ → DerivLayer)
    (hc : consistentB net = true) (hlen : 0 < net.length) :
    (back_propagate_sample net rb dbuf x y).1 = sampleLoss net x y ∧
    (back_propagate_sample net rb dbuf x y).2.1 = forward_unchecked net x rb ∧
    (∀ u, u < net.length → ∀ k, k < (net.getD u default).n →
      ((back_propagate_sample net rb dbuf x y).2.2 u).db k
        = (dbuf u).db k + eAt net x y u k
            * (net.getD u default).phi.deriv (zSpec net x u k)) ∧
    (∀ u, u < net.length → ∀ k, k < (net.getD u default).n →
      ∀ g, g < (net.getD u default).n_previous →
      ((back_propagate_sample net rb dbuf x y).2.2 u).dw k g
        = (dbuf u).dw k g + eAt net x y u k
            * (net.getD u default).phi.deriv (zSpec net x u k)
            * aPrevSpec net x u g) ∧
    (∀ u, u + 1 < net.length → ∀ g, g < (net.getD u default).n →
      ((back_propagate_sample net rb dbuf x y).2.2 u).da g = eAt net x y u g) ∧
    ((back_propagate_sample net rb dbuf x y).2.2 (net.length - 1)).da
      = (dbuf (net.length - 1)).da ∧
    (∀ k, eAt net x y (net.length - 1) k
      = aSpec net x (net.length - 1) k - y k) ∧
    (∀ u, u + 1 < net.length → ∀ g, eAt net x y u g
      = ∑ k ∈ Finset.range (net.getD (u + 1) default).n,
          eAt net x y (u + 1) k
            * (net.getD (u + 1) default).phi.deriv (zSpec net x (u + 1) k)
            * (net.getD (u + 1) default).w k g) ∧
    sampleLoss net x y
      = ∑ k ∈ Finset.range (net.getD (net.length - 1) default).n,
          (aSpec net x (net.length - 1) k - y k) ^ 2 := by
  obtain ⟨h1, h2, h3, h4, h5, h6⟩ :=
    back_propagate_sample_closed net x y rb dbuf hc hlen
  refine ⟨h1, h2, h3, fun u hu k hk g hg => ?_, h5, h6, ?_, ?_, rfl⟩
  · rw [h4 u hu k hk g hg]
    rfl
  · intro k
    exact congrFun (eAt_output net x y) k
  · intro u hu g
    exact congrFun (eAt_step net x y u hu) g

theorem back_propagate_sample_spec_witness :
    (consistentB netW = true ∧ 0 < netW.length) ∧
    ((back_propagate_sample netW rbZero dbufZero xW yW).1 = sampleLoss netW xW yW ∧
    (back_propagate_sample netW rbZero dbufZero xW yW).2.1
      = forward_unchecked netW xW rbZero ∧
    (∀ u, u < netW.length → ∀ k, k < (netW.getD u default).n →
      ((back_propagate_sample netW rbZero dbufZero xW yW).2.2 u).db k
        = (dbufZero u).db k + eAt netW xW yW u k
            * (netW.getD u default).phi.deriv (zSpec netW xW u k)) ∧
    (∀ u, u < netW.length → ∀ k, k < (netW.getD u default).n →
      ∀ g, g < (netW.getD u default).n_previous →
      ((back_propagate_sample netW rbZero dbufZero xW yW).2.2 u).dw k g
        = (dbufZero u).dw k g + eAt netW xW yW u k
            * (netW.getD u default).phi.deriv (zSpec netW xW u k)
            * aPrevSpec netW xW u g) ∧
    (∀ u, u + 1 < netW.length → ∀ g, g < (netW.getD u default).n →
      ((back_propagate_sample netW rbZero dbufZero xW yW).2.2 u).da g
        = eAt netW xW yW u g) ∧
    ((back_propagate_sample netW rbZero dbufZero xW yW).2.2 (netW.length - 1)).da
      = (dbufZero (netW.length - 1)).da ∧
    (∀ k, eAt netW xW yW (netW.length - 1) k
      = aSpec netW xW (netW.length - 1) k - yW k) ∧
    (∀ u, u + 1 < netW.length → ∀ g, eAt netW xW yW u g
      = ∑ k ∈ Finset.range (netW.getD (u + 1) default).n,
          eAt netW xW yW (u + 1) k
            * (netW.getD (u + 1) default).phi.deriv (zSpec netW xW (u + 1) k)
            * (netW.getD (u + 1) default).w k g) ∧
    sampleLoss netW xW yW
      = ∑ k ∈ Finset.range (netW.getD (netW.length - 1) default).n,
          (aSpec netW xW (netW.length - 1) k - yW k) ^ 2) :=
  ⟨⟨by decide, by decide⟩,
    back_propagate_sample_spec netW xW yW rbZero dbufZero (by decide) (by decide)⟩
/-- Closed form of `calculate_derivs`'s sample loop: starting from any running
loss, count and buffers, folding `cdStep` over a sample list adds the sum of
the per-sample losses to the loss, the number of samples to the count, and the
sum of the per-sample gradient increments to every in-range `db`/`dw` cell. -/
theorem calculate_derivs_fold (net : List LayerRef)
    (hc : consistentB net = true) (hlen : 0 < net.length) :
    ∀ ss : List ((ℕ → ℚ) × (ℕ → ℚ)), ∀ (l : ℚ) (c : ℕ)
      (rb0 : ℕ → ResultLayer) (dbuf0 : ℕ → DerivLayer),
      (ss.foldl (cdStep net) (l, c, rb0, dbuf0)).1
        = l + (ss.map (fun s => sampleLoss net s.1 s.2)).sum ∧
      (ss.foldl (cdStep net) (l, c, rb0, dbuf0)).2.1 = c + ss.length ∧
      (∀ u, u < net.length → ∀ k, k < (net.getD u default).n →
        ((ss.foldl (cdStep net) (l, c, rb0, dbuf0)).2.2.2 u).db k
          = (dbuf0 u).db k + (ss.map (fun s => dbInc net s.1 s.2 u k)).sum) ∧
      (∀ u, u < net.length → ∀ k, k < (net.getD u default).n →
        ∀ g, g < (net.getD u default).n_previous →
        ((ss.foldl (cdStep net) (l, c, rb0, dbuf0)).2.2.2 u).dw k g
          = (dbuf0 u).dw k g + (ss.map (fun s => dwInc net s.1 s.2 u k g)).sum) := by
  intro ss
  induction ss with
  | nil =>
    intro l c rb0 dbuf0
    refine ⟨by simp, by simp, ?_, ?_⟩
    · intro u hu k hk; simp
    · intro u hu k hk g hg; simp
  | cons s ss ih =>
    intro l c rb0 dbuf0
    simp only [List.foldl_cons]
    have hstep : cdStep net (l, c, rb0, dbuf0) s
        = (l + (back_propagate_sample net rb0 dbuf0 s.1 s.2).1, c + 1,
           (back_propagate_sample net rb0 dbuf0 s.1 s.2).2.1,
           (back_propagate_sample net rb0 dbuf0 s.1 s.2).2.2) := rfl
    rw [hstep]
    obtain ⟨ih1, ih2, ih3, ih4⟩ :=
      ih (l + (back_propagate_sample net rb0 dbuf0 s.1 s.2).1) (c + 1)
        ((back_propagate_sample net rb0 dbuf0 s.1 s.2).2.1)
        ((back_propagate_sample net rb0 dbuf0 s.1 s.2).2.2)
    obtain ⟨hb1, hb2, hb3, hb4, hb5, hb6⟩ :=
      back_propagate_sample_closed net s.1 s.2 rb0 dbuf0 hc hlen
    refine ⟨?_, ?_, ?_, ?_⟩
    · rw [ih1, hb1, List.map_cons, List.sum_cons]
      ring
    · rw [ih2, List.length_cons]
      omega
    · intro u hu k hk
      rw [ih3 u hu k hk, hb3 u hu k hk, List.map_cons, List.sum_cons]
      ring
    · intro u hu k hk g hg
      rw [ih4 u hu k hk g hg, hb4 u hu k hk g hg, List.map_cons, List.sum_cons]
      ring
/-- C3: on a non-empty batch of `n` samples, `calculate_derivs` zeroes the
`dw`/`db` accumulators once at the start (the result depends only on the batch,
never on the accumulators' incoming values), sums the per-sample gradient
increments over the whole batch into every accumulator cell, divides every
accumulator by `n` at the end, and returns the summed per-sample losses
divided by `n`. -/
theorem calculate_derivs_spec (net : List LayerRef) (rb : ℕ → ResultLayer)
    (dbuf : ℕ → DerivLayer) (ss : List ((ℕ → ℚ) × (ℕ → ℚ)))
    (hc : consistentB net = true) (hlen : 0 < net.length) (hne : ss ≠ []) :
    (calculate_derivs net rb dbuf ss).1
      = (ss.map (fun s => sampleLoss net s.1 s.2)).sum / (ss.length : ℚ) ∧
    (∀ u, u < net.length → ∀ k, k < (net.getD u default).n →
      ((calculate_derivs net rb dbuf ss).2.2 u).db k
        = (ss.map (fun s => dbInc net s.1 s.2 u k)).sum / (ss.length : ℚ)) ∧
    (∀ u, u < net.length → ∀ k, k < (net.getD u default).n →
      ∀ g, g < (net.getD u default).n_previous →
      ((calculate_derivs net rb dbuf ss).2.2 u).dw k g
        = (ss.map (fun s => dwInc net s.1 s.2 u k g)).sum / (ss.length : ℚ)) := by
  have hnonempty : ss ≠ [] := hne
  obtain ⟨h1, h2, h3, h4⟩ :=
    calculate_derivs_fold net hc hlen ss 0 0 rb (clear_params dbuf)
  refine ⟨?_, ?_, ?_⟩
  · show (ss.foldl (cdStep net) (0, 0, rb, clear_params dbuf)).1
        / (((ss.foldl (cdStep net) (0, 0, rb, clear_params dbuf)).2.1 : ℕ) : ℚ) = _
    rw [h1, h2]
    norm_num
  · intro u hu k hk
    show ((ss.foldl (cdStep net) (0, 0, rb, clear_params dbuf)).2.2.2 u).db k
        / (((ss.foldl (cdStep net) (0, 0, rb, clear_params dbuf)).2.1 : ℕ) : ℚ) = _
    rw [h3 u hu k hk, h2]
    have hz : (clear_params dbuf u).db k = 0 := rfl
    rw [hz]
    norm_num
  · intro u hu k hk g hg
    show ((ss.foldl (cdStep net) (0, 0, rb, clear_params dbuf)).2.2.2 u).dw k g
        / (((ss.foldl (cdStep net) (0, 0, rb, clear_params dbuf)).2.1 : ℕ) : ℚ) = _
    rw [h4 u hu k hk g hg, h2]
    have hz : (clear_params dbuf u).dw k g = 0 := rfl
    rw [hz]
    norm_num

theorem calculate_derivs_spec_witness :
    (consistentB netW = true ∧ 0 < netW.length
      ∧ [(xW, yW), (xW2, yW2)] ≠ ([] : List ((ℕ → ℚ) × (ℕ → ℚ)))) ∧
    ((calculate_derivs netW rbZero dbufZero [(xW, yW), (xW2, yW2)]).1
      = ([(xW, yW), (xW2, yW2)].map (fun s => sampleLoss netW s.1 s.2)).sum
        / (([(xW, yW), (xW2, yW2)] : List ((ℕ → ℚ) × (ℕ → ℚ))).length : ℚ) ∧
    (∀ u, u < netW.length → ∀ k, k < (netW.getD u default).n →
      ((calculate_derivs netW rbZero dbufZero [(xW, yW), (xW2, yW2)]).2.2 u).db k
        = ([(xW, yW), (xW2, yW2)].map (fun s => dbInc netW s.1 s.2 u k)).sum
          / (([(xW, yW), (xW2, yW2)] : List ((ℕ → ℚ) × (ℕ → ℚ))).length : ℚ)) ∧
    (∀ u, u < netW.length → ∀ k, k < (netW.getD u default).n →
      ∀ g, g < (netW.getD u default).n_previous →
      ((calculate_derivs netW rbZero dbufZero [(xW, yW), (xW2, yW2)]).2.2 u).dw k g
        = ([(xW, yW), (xW2, yW2)].map (fun s => dwInc netW s.1 s.2 u k g)).sum
          / (([(xW, yW), (xW2, yW2)] : List ((ℕ → ℚ) × (ℕ → ℚ))).length : ℚ))) :=
  ⟨⟨by decide, by decide, by simp⟩,
    calculate_derivs_spec netW rbZero dbufZero [(xW, yW), (xW2, yW2)]
      (by decide) (by decide) (by simp)⟩
